import Mathlib

/-!
Verification of the core extraction-and-normalization pipeline of
`aspnet_to_swagger.py`: the route-name parser (`extract_path_and_method`),
the parameter extractor (`extract_parameters_from_name`), the operation-id
allocator (the `operation_id_counter` logic inside `convert_to_swagger`) and
the document assembler (`convert_to_swagger`).

Strings are modelled as `List Char`.  Python's regular expressions are
embedded by the specific matching procedures the engine performs on the three
concrete patterns used by the source (leading-verb match, `/\x7b...\x7d`
scan, `name=\x7bplaceholder\x7d` scan), including greedy/lazy quantifier
behaviour and one-character scan advance on failure.  The character classes
`\s` and `\w` and Python's `str.strip` are modelled over their ASCII parts
(the inputs the tool meets are ASCII apart from the fixed Chinese literals,
which are carried verbatim).  Python dicts are modelled as association lists
with insert-order-preserving update, matching dict semantics.
-/

set_option linter.unusedVariables false

namespace AspnetToSwagger

/-- ASCII part of Python's whitespace class `\s` (also used by `str.strip()`). -/
def isSpaceRe (c : Char) : Bool :=
  c = ' ' || c = '\t' || c = '\n' || c = '\r' || c = '\x0b' || c = '\x0c'

/-- ASCII part of Python's word class `\w`: letters, digits and underscore. -/
def isWordRe (c : Char) : Bool :=
  (('a' ≤ c && c ≤ 'z') || ('A' ≤ c && c ≤ 'Z') || ('0' ≤ c && c ≤ '9') || c = '_')

/-- Python `str.lower` on a list of characters (ASCII case mapping). -/
def lowerList (s : List Char) : List Char := s.map Char.toLower

/-- Python `str.strip(chars)`: remove characters satisfying `p` from both ends. -/
def pyStrip (p : Char → Bool) (s : List Char) : List Char :=
  ((s.dropWhile p).reverse.dropWhile p).reverse

/-- Whether `$` (no MULTILINE) matches at the position whose remaining input is
`l`: at the very end of the string, or just before a final newline. -/
def dollarAt (l : List Char) : Bool :=
  l.isEmpty || l == ['\n']

/-- Whether the lazy group of `(.+?)(?:\?|$)` may stop when the remaining
input is `l`: the next character is `?`, or `$` matches here. -/
def stopAt (l : List Char) : Bool :=
  l.head? = some '?' || dollarAt l

/-- The lazy tail `(.+?)(?:\?|$)` of the route regex, started on input `l`:
consume at least one non-newline character, extending one character at a
time, and stop at the first position where `?` follows or `$` matches.
Returns the text captured by the group, or `none` when no match exists. -/
def lazyPath : List Char → Option (List Char)
  | [] => none
  | c :: cs =>
    if c = '\n' then none
    else if stopAt cs then some [c]
    else (lazyPath cs).map (c :: ·)

/-- Backtracking of the greedy `\s+` in the route regex: `rest` starts with a
maximal whitespace run of length at least `k`; try consuming `k` whitespace
characters (greedy first), then `k-1`, ... down to `1`, running the lazy tail
on what remains, and return the first capture that succeeds. -/
def spacesThenLazy : Nat → List Char → Option (List Char)
  | 0, _ => none
  | k + 1, rest =>
    match lazyPath (rest.drop (k + 1)) with
    | some cap => some cap
    | none => spacesThenLazy k rest

/-- The five verb alternatives of the route regex, lowercased, in the order the
pattern lists them. -/
def httpVerbs : List (List Char) :=
  [['g', 'e', 't'], ['p', 'o', 's', 't'], ['p', 'u', 't'],
   ['d', 'e', 'l', 'e', 't', 'e'], ['p', 'a', 't', 'c', 'h']]

/-- Case-insensitive leading-verb match: try each alternative in order; on
success return the lowercased verb and the rest of the input.  At most one
alternative can match (none is a case-variant of another). -/
def findVerb : List (List Char) → List Char → Option (List Char × List Char)
  | [], _ => none
  | v :: vs, s =>
    if lowerList (s.take v.length) = v then some (v, s.drop v.length)
    else findVerb vs s

/-- `extract_path_and_method` of the source: match
`(GET|POST|PUT|DELETE|PATCH)\s+(.+?)(?:\?|$)` case-insensitively at the start
of the name; on success lowercase the verb, `strip()` the captured path, strip
surrounding `/` and prefix a single `/`; otherwise fall back to
`("get", "/unknown")`. -/
def extract_path_and_method (s : List Char) : List Char × List Char :=
  match findVerb httpVerbs s with
  | some (v, rest) =>
    match spacesThenLazy (rest.takeWhile isSpaceRe).length rest with
    | some cap => (v, '/' :: pyStrip (fun c => c = '/') (pyStrip isSpaceRe cap))
    | none => (['g', 'e', 't'], "/unknown".toList)
  | none => (['g', 'e', 't'], "/unknown".toList)

theorem dropWhile_length_le (p : Char → Bool) (l : List Char) :
    (l.dropWhile p).length ≤ l.length := by
  induction l with
  | nil => simp
  | cons c cs ih =>
    simp only [List.dropWhile]
    split
    · simpa using Nat.le_succ_of_le ih
    · simp

/-- The tail of a pattern match on a brace-delimited capture: given the input
after an opening `\x7b`, return the nonempty capture of `([^}]+)\x7d` and the
input remaining after the closing `\x7d` (the head of the dropWhile remainder
is necessarily `\x7d` when it is nonempty). -/
def braceCapture (rest2 : List Char) : Option (List Char × List Char) :=
  let cap := rest2.takeWhile (fun x => x ≠ '}')
  let rest := rest2.dropWhile (fun x => x ≠ '}')
  if cap.isEmpty ∨ rest.isEmpty then none
  else some (cap, rest.tail)

theorem braceCapture_shrink {s cap rest3 : List Char}
    (h : braceCapture s = some (cap, rest3)) : rest3.length < s.length := by
  simp only [braceCapture] at h
  split at h
  · simp at h
  · simp only [Option.some.injEq, Prod.mk.injEq] at h
    rename_i hne
    rw [not_or] at hne
    have hle := dropWhile_length_le (fun x => x ≠ '}') s
    have hpos : (s.dropWhile (fun x => x ≠ '}')).length ≠ 0 := by
      intro h0
      exact hne.2 (by simpa [List.isEmpty_iff, List.length_eq_zero] using h0)
    have htail : ((s.dropWhile (fun x => x ≠ '}')).tail).length =
        (s.dropWhile (fun x => x ≠ '}')).length - 1 := List.length_tail _
    rw [← h.2]
    omega

/-- One attempted match of `/\x7b([^}]+)\x7d` at the head of `s`: on success
return the captured identifier and the input remaining after the match. -/
def scanStep (s : List Char) : Option (List Char × List Char) :=
  if s.take 2 = ['/', '{'] then braceCapture (s.drop 2) else none

theorem scanStep_shrink {s cap rest3 : List Char} (h : scanStep s = some (cap, rest3)) :
    rest3.length < s.length := by
  simp only [scanStep] at h
  split at h
  · rename_i h2
    have hlen : s.length ≥ 2 := by
      have := congrArg List.length h2
      simp at this
      omega
    have := braceCapture_shrink h
    simp only [List.length_drop] at this
    omega
  · simp at h

/-- `re.findall` of `/\x7b([^}]+)\x7d` over the whole input: scan left to
right, on a match continue after it, on a failure advance one character.
Structured over a fuel bound (every step strictly shortens the input, so any
fuel at or above the input length computes the full scan). -/
def pathParamScanAux : Nat → List Char → List (List Char)
  | 0, _ => []
  | fuel + 1, s =>
    match s with
    | [] => []
    | c :: rest =>
      match scanStep (c :: rest) with
      | some (cap, rest3) => cap :: pathParamScanAux fuel rest3
      | none => pathParamScanAux fuel rest

/-- The path-parameter capture list of an API name. -/
def pathParamScan (s : List Char) : List (List Char) :=
  pathParamScanAux s.length s

/-- One attempted match of `(\w+)=\x7b([^}]+)\x7d` at the head of `s`: on
success return the first captured group (the query-parameter name) and the
input remaining after the match.  The greedy `\w+` run cannot backtrack
usefully, since `=` is not a word character, so the name is the maximal word
run at the scan position. -/
def queryStep (s : List Char) : Option (List Char × List Char) :=
  let w := s.takeWhile isWordRe
  let r := s.dropWhile isWordRe
  if w.isEmpty then none
  else if r.take 2 = ['=', '{'] then
    (braceCapture (r.drop 2)).map (fun t => (w, t.2))
  else none

theorem queryStep_shrink {s w rest3 : List Char} (h : queryStep s = some (w, rest3)) :
    rest3.length < s.length := by
  simp only [queryStep] at h
  split at h
  · simp at h
  · split at h
    · rename_i h2
      have hrlen : (s.dropWhile isWordRe).length ≥ 2 := by
        have := congrArg List.length h2
        simp at this
        omega
      have hle := dropWhile_length_le isWordRe s
      rcases h3 : braceCapture ((s.dropWhile isWordRe).drop 2) with _ | ⟨cap, r3⟩ <;>
        rw [h3] at h
      · simp at h
      · have := braceCapture_shrink h3
        simp at h
        obtain ⟨-, h5⟩ := h
        subst h5
        simp only [List.length_drop] at this
        omega
    · simp at h

/-- `re.findall` of `(\w+)=\x7b([^}]+)\x7d`: scan left to right, keeping the
name group of each match; continue after a match, advance one character on a
failure.  Fuel-structured like `pathParamScanAux`. -/
def queryScanAux : Nat → List Char → List (List Char)
  | 0, _ => []
  | fuel + 1, s =>
    match s with
    | [] => []
    | c :: rest =>
      match queryStep (c :: rest) with
      | some (w, rest3) => w :: queryScanAux fuel rest3
      | none => queryScanAux fuel rest

/-- The query-parameter name capture list of a query string. -/
def queryScan (s : List Char) : List (List Char) :=
  queryScanAux s.length s

/-- Python `api_name.split('?', 1)[1]` guarded by `'?' in api_name`: the text
after the first `?`, or `none` when the input has no `?`. -/
def afterFirstQ : List Char → Option (List Char)
  | [] => none
  | c :: rest => if c = '?' then some rest else afterFirstQ rest

/-- One entry of an operation's `parameters` array, as built by
`extract_parameters_from_name` (the constant `schema` field carries its
`type` value). -/
structure Param where
  name : List Char
  location : List Char
  required : Bool
  schemaType : List Char
  description : List Char
deriving DecidableEq, Repr

/-- The path-parameter dictionary built for a captured identifier `n`
(description literal `'路径参数 '` followed by the name). -/
def mkPathParam (n : List Char) : Param :=
  { name := n, location := "path".toList, required := true,
    schemaType := "string".toList, description := "路径参数 ".toList ++ n }

/-- The query-parameter dictionary built for a captured name `n`
(description literal `'查询参数 '` followed by the name). -/
def mkQueryParam (n : List Char) : Param :=
  { name := n, location := "query".toList, required := false,
    schemaType := "string".toList, description := "查询参数 ".toList ++ n }

/-- The common append-if-unseen loop of `extract_parameters_from_name`:
for each captured name, skip it when already in `seen`, otherwise append
`mk name` to the accumulated parameter list and record the name as seen. -/
def addParams (mk : List Char → Param) :
    List (List Char) → List Param → List (List Char) → List Param × List (List Char)
  | [], acc, seen => (acc, seen)
  | c :: cs, acc, seen =>
    if c ∈ seen then addParams mk cs acc seen
    else addParams mk cs (acc ++ [mk c]) (c :: seen)

/-- `extract_parameters_from_name` of the source: collect path parameters from
every `/\x7bident\x7d` occurrence in the whole name, then, when the name
contains `?`, collect query parameters from `name=\x7bplaceholder\x7d`
patterns after the first `?`, deduplicating by name across both phases. -/
def extract_parameters_from_name (name : List Char) : List Param :=
  let r1 := addParams mkPathParam (pathParamScan name) [] []
  match afterFirstQ name with
  | none => r1.1
  | some qp => (addParams mkQueryParam (queryScan qp) r1.1 r1.2).1

/-- The decimal digit character for `d ≤ 9` (total by clamping at `9`). -/
def digitChar : Nat → Char
  | 0 => '0' | 1 => '1' | 2 => '2' | 3 => '3' | 4 => '4'
  | 5 => '5' | 6 => '6' | 7 => '7' | 8 => '8' | _ => '9'

/-- Python `str(n)`, structured over a fuel bound so that it reduces in the
kernel; any fuel above `n` computes all digits, since `n / 10` decreases. -/
def decDigitsAux : Nat → Nat → List Char
  | 0, _ => []
  | fuel + 1, n =>
    if n < 10 then [digitChar n]
    else decDigitsAux fuel (n / 10) ++ [digitChar (n % 10)]

/-- Python `str(n)` for a natural number: decimal digits, no leading zeros. -/
def decDigits (n : Nat) : List Char := decDigitsAux (n + 1) n

/-- The numeric value of a decimal digit string; left inverse of `decDigits`,
used to show decimal renderings of distinct numbers differ. -/
def decVal (l : List Char) : Nat :=
  l.foldl (fun a c => a * 10 + (c.toNat - 48)) 0

/-- The base operation identifier of `convert_to_swagger`:
`method + "_" + path.replace('/', '_').replace('\x7b', '').replace('\x7d', '').strip('_')`. -/
def opBase (method path : List Char) : List Char :=
  method ++ '_' ::
    pyStrip (fun c => c = '_')
      (((path.map (fun c => if c = '/' then '_' else c)).filter
        (fun c => c ≠ '{')).filter (fun c => c ≠ '}'))

/-- The `operation_id_counter` dict of one `convert_to_swagger` run, as a
finite partial map from base identifiers to their stored counter value. -/
abbrev CounterState : Type := List Char → Option Nat

/-- The fresh, empty counter dict created at the start of a build. -/
def emptyCounter : CounterState := fun _ => none

/-- One operation-id allocation: if the base is already a key, increment its
counter to `n+1` and return `base + "_" + str(n+1)`; otherwise store `0` for
the base and return it unchanged. -/
def allocate (st : CounterState) (base : List Char) : List Char × CounterState :=
  match st base with
  | some n =>
    (base ++ '_' :: decDigits (n + 1), fun k => if k = base then some (n + 1) else st k)
  | none => (base, fun k => if k = base then some 0 else st k)

/-- The identifiers an allocator produces across a sequence of
`(method, path)` requests, threading the counter dict. -/
def allocRun (st : CounterState) : List (List Char × List Char) → List (List Char)
  | [] => []
  | mp :: rest =>
    let r := allocate st (opBase mp.1 mp.2)
    r.1 :: allocRun r.2 rest

/-- One API entry scraped from the help page (`name`, `url`, `description`). -/
structure Api where
  name : List Char
  url : List Char
  description : List Char
deriving DecidableEq, Repr

/-- One API group: its description and its entries in document order. -/
structure Group where
  description : List Char
  apis : List Api
deriving DecidableEq, Repr

/-- One entry of the emitted `tags` array. -/
structure Tag where
  name : List Char
  description : List Char
deriving DecidableEq, Repr

/-- One entry of the emitted `servers` array. -/
structure Server where
  url : List Char
  description : List Char
deriving DecidableEq, Repr

/-- The fixed response skeleton every operation carries: status code mapped to
description text.  The constant empty-object JSON schema under the `200`
entry's `application/json` content is a fixed literal and is elided. -/
def stdResponses : List (List Char × List Char) :=
  [("200".toList, "成功响应".toList),
   ("400".toList, "请求错误".toList),
   ("500".toList, "服务器错误".toList)]

/-- One emitted operation object.  `parameters` is `none` when the extracted
list is empty (the key is only attached when non-empty); `requestBody` is
`true` exactly when the fixed empty-object request body is attached. -/
structure Operation where
  tags : List (List Char)
  summary : List Char
  description : List Char
  operationId : List Char
  responses : List (List Char × List Char)
  parameters : Option (List Param)
  requestBody : Bool
deriving DecidableEq, Repr

/-- The operation dictionary built for one API entry of group `groupName`,
given its allocated `operationId`, parsed `method` and extracted params. -/
def buildOperation (groupName : List Char) (api : Api) (operationId : List Char)
    (method : List Char) (params : List Param) : Operation :=
  { tags := [groupName],
    summary := api.name,
    description := api.description,
    operationId := operationId,
    responses := stdResponses,
    parameters := if params.isEmpty then none else some params,
    requestBody :=
      decide (method = "post".toList ∨ method = "put".toList ∨ method = "patch".toList) }

/-- Insertion-order-preserving dict update: overwrite the value at an existing
key in place, or append a new key at the end (Python dict semantics). -/
def dictInsert {β : Type} : List (List Char × β) → List Char → β → List (List Char × β)
  | [], k, v => [(k, v)]
  | (k', v') :: rest, k, v =>
    if k = k' then (k, v) :: rest else (k', v') :: dictInsert rest k v

/-- Dict lookup on the association-list model. -/
def dictLookup {β : Type} : List (List Char × β) → List Char → Option β
  | [], _ => none
  | (k', v') :: rest, k => if k = k' then some v' else dictLookup rest k

/-- The nested `paths` mapping: path template → (method → operation). -/
abbrev PathsMap : Type := List (List Char × List (List Char × Operation))

/-- `swagger['paths'].setdefault(path, dict())[method] = op`: ensure the inner
dict for `path` exists, then overwrite its `method` entry. -/
def pathsInsert (paths : PathsMap) (path method : List Char) (op : Operation) : PathsMap :=
  dictInsert paths path (dictInsert ((dictLookup paths path).getD []) method op)

/-- Lookup of `paths[path][method]` in the nested mapping. -/
def lookup2 (paths : PathsMap) (path method : List Char) : Option Operation :=
  dictLookup ((dictLookup paths path).getD []) method

/-- The per-entry loop body of `convert_to_swagger`, over the flattened
(group, entry) sequence: parse the name, extract parameters, allocate an
operation id, build the operation and store it at `paths[path][method]`. -/
def convertEntries (st : CounterState) (paths : PathsMap) :
    List (List Char × Api) → PathsMap
  | [] => paths
  | (g, api) :: rest =>
    let mp := extract_path_and_method api.name
    let params := extract_parameters_from_name api.name
    let r := allocate st (opBase mp.1 mp.2)
    convertEntries r.2 (pathsInsert paths mp.2 mp.1 (buildOperation g api r.1 mp.1 params)) rest

/-- The same per-entry pipeline, producing the flat sequence of
`(path, method, operation)` triples in processing order instead of the nested
dict; the reference against which the nested insertion is verified. -/
def opsList (st : CounterState) : List (List Char × Api) → List (List Char × List Char × Operation)
  | [] => []
  | (g, api) :: rest =>
    let mp := extract_path_and_method api.name
    let params := extract_parameters_from_name api.name
    let r := allocate st (opBase mp.1 mp.2)
    (mp.2, mp.1, buildOperation g api r.1 mp.1 params) :: opsList r.2 rest

/-- The group-then-entry processing order of the assembler's double loop. -/
def flattenGroups (groups : List (List Char × Group)) : List (List Char × Api) :=
  groups.flatMap (fun gp => gp.2.apis.map (fun a => (gp.1, a)))

/-- The tag built for one group: its name, and its description, or
`f'\x7bgroup_name\x7d 相关接口'` when the description is empty. -/
def mkTag (groupName : List Char) (g : Group) : Tag :=
  { name := groupName,
    description :=
      if g.description.isEmpty then groupName ++ " 相关接口".toList else g.description }

/-- The tag-building loop of `convert_to_swagger`, appending one tag per
group to the accumulated array. -/
def buildTags : List (List Char × Group) → List Tag → List Tag
  | [], acc => acc
  | gp :: rest, acc => buildTags rest (acc ++ [mkTag gp.1 gp.2])

/-- The assembled document: constant `openapi`/`info` fields, the single
server entry, the tags array and the nested paths mapping. -/
structure Swagger where
  openapi : List Char
  infoTitle : List Char
  infoDescription : List Char
  infoVersion : List Char
  servers : List Server
  tags : List Tag
  paths : PathsMap
deriving DecidableEq, Repr

/-- Python `str.replace(pat, '')` for a nonempty `pat`: remove every
non-overlapping occurrence, scanning left to right and continuing after each
removed occurrence.  Fuel-structured (each step shortens the input). -/
def removeOccAux (pat : List Char) : Nat → List Char → List Char
  | 0, _ => []
  | fuel + 1, s =>
    match s with
    | [] => []
    | c :: rest =>
      if 0 < pat.length ∧ pat = (c :: rest).take pat.length then
        removeOccAux pat fuel ((c :: rest).drop pat.length)
      else c :: removeOccAux pat fuel rest

/-- `s.replace(pat, '')` on the list model. -/
def removeOcc (pat s : List Char) : List Char :=
  removeOccAux pat s.length s

/-- `convert_to_swagger` of the source, taking the stored base URL and the
scraped group mapping. -/
def convert_to_swagger (base_url : List Char) (api_groups : List (List Char × Group)) :
    Swagger :=
  { openapi := "3.0.0".toList,
    infoTitle := "ASP.NET Web API".toList,
    infoDescription := "从ASP.NET Help页面转换的API文档".toList,
    infoVersion := "1.0.0".toList,
    servers :=
      [{ url := removeOcc "/help".toList (removeOcc "/Help".toList base_url),
         description := "API服务器".toList }],
    tags := buildTags api_groups [],
    paths := convertEntries emptyCounter [] (flattenGroups api_groups) }

/-- The identifier the allocator hands out for base `b` after the earlier
bases `ctx`: the base itself on its first request, `b + "_" + n` on the
`n`-th repeat. -/
def outFor (ctx : List (List Char)) (b : List Char) : List Char :=
  if ctx.count b = 0 then b else b ++ '_' :: decDigits (ctx.count b)

/-- Keep the first occurrence of every element, in order of first appearance.
Fuel-structured (filtering never lengthens the tail). -/
def firstOccDedupAux : Nat → List (List Char) → List (List Char)
  | 0, _ => []
  | fuel + 1, l =>
    match l with
    | [] => []
    | c :: cs => c :: firstOccDedupAux fuel (cs.filter (fun x => x ≠ c))

/-- First-occurrence deduplication of a list of names. -/
def firstOccDedup (l : List (List Char)) : List (List Char) :=
  firstOccDedupAux l.length l

/-- The elements of `caps` not in `seen`, first occurrences only, in order;
the names the append-if-unseen loop emits when started with `seen`. -/
def newFirsts : List (List Char) → List (List Char) → List (List Char)
  | [], _ => []
  | c :: cs, seen =>
    if c ∈ seen then newFirsts cs seen else c :: newFirsts cs (c :: seen)

/-- The query-parameter names found in an API name: the `(\w+)=\x7b...\x7d`
captures after the first `?`, or none when the name has no `?`. -/
def queryCapsOf (name : List Char) : List (List Char) :=
  match afterFirstQ name with
  | none => []
  | some qp => queryScan qp

/-- Left-biased choice on options (first result if present, else second). -/
def orO {α : Type} : Option α → Option α → Option α
  | some a, _ => some a
  | none, b => b

/-- The operation of the LAST triple in `ops` whose path and method are
`p`, `m` — the operation that survives repeated dict insertion. -/
def lastMatch (p m : List Char) :
    List (List Char × List Char × Operation) → Option Operation
  | [] => none
  | t :: rest =>
    orO (lastMatch p m rest) (if t.1 = p ∧ t.2.1 = m then some t.2.2 else none)

/-! Theorems.  First, generic helper lemmas about the embedded string and
dict operations; then one theorem per specification claim.  For the
fuel-structured functions, a monotonicity lemma shows any sufficient fuel
computes the same result, giving the natural recurrences as step lemmas. -/

theorem decDigitsAux_mono :
    ∀ f1 : Nat, ∀ f2 n : Nat, n < f1 → n < f2 → decDigitsAux f1 n = decDigitsAux f2 n := by
  intro f1
  induction f1 with
  | zero => intro f2 n h1; omega
  | succ f ih =>
    intro f2 n h1 h2
    match f2, h2 with
    | g + 1, h2 =>
      simp only [decDigitsAux]
      split
      · rfl
      · rename_i hge
        rw [ih g (n / 10) (by omega) (by omega)]

theorem decDigits_step (n : Nat) :
    decDigits n = if n < 10 then [digitChar n]
      else decDigits (n / 10) ++ [digitChar (n % 10)] := by
  show decDigitsAux (n + 1) n = _
  simp only [decDigitsAux]
  split
  · rfl
  · rename_i hge
    rw [decDigitsAux_mono n (n / 10 + 1) (n / 10) (by omega) (by omega)]
    rfl

theorem digitChar_val {d : Nat} (h : d < 10) : (digitChar d).toNat - 48 = d := by
  have : ∀ e < 10, (digitChar e).toNat - 48 = e := by decide
  exact this d h

theorem decVal_append_digit (xs : List Char) (c : Char) :
    decVal (xs ++ [c]) = decVal xs * 10 + (c.toNat - 48) := by
  simp [decVal, List.foldl_append]

theorem decVal_decDigits (n : Nat) : decVal (decDigits n) = n := by
  induction n using Nat.strong_induction_on with
  | _ n ih =>
    rw [decDigits_step]
    split
    · rename_i h
      simp [decVal, digitChar_val h]
    · rename_i h
      rw [decVal_append_digit, ih (n / 10) (Nat.div_lt_self (by omega) (by omega)),
        digitChar_val (Nat.mod_lt _ (by omega))]
      omega

theorem decDigits_injective {a b : Nat} (h : decDigits a = decDigits b) : a = b := by
  have := congrArg decVal h
  rwa [decVal_decDigits, decVal_decDigits] at this

theorem decDigits_ne_nil (n : Nat) : decDigits n ≠ [] := by
  rw [decDigits_step]
  split
  · simp
  · simp

theorem pathParamScanAux_nil : ∀ f : Nat, pathParamScanAux f [] = [] := by
  intro f
  cases f <;> rfl

theorem pathParamScanAux_mono :
    ∀ f1 : Nat, ∀ f2 : Nat, ∀ s : List Char, s.length ≤ f1 → s.length ≤ f2 →
      pathParamScanAux f1 s = pathParamScanAux f2 s := by
  intro f1
  induction f1 with
  | zero =>
    intro f2 s h1 h2
    have : s = [] := by
      cases s
      · rfl
      · simp at h1
    subst this
    rw [pathParamScanAux_nil, pathParamScanAux_nil]
  | succ f ih =>
    intro f2 s h1 h2
    match s with
    | [] => rw [pathParamScanAux_nil, pathParamScanAux_nil]
    | c :: rest =>
      match f2, h2 with
      | g + 1, h2 =>
        simp only [pathParamScanAux]
        rcases hs : scanStep (c :: rest) with _ | ⟨cap, rest3⟩
        · exact ih g rest (by simp at h1; omega) (by simp at h2; omega)
        · have hlt := scanStep_shrink hs
          simp only [List.length_cons] at hlt h1 h2
          show cap :: pathParamScanAux f rest3 = cap :: pathParamScanAux g rest3
          rw [ih g rest3 (by omega) (by omega)]

theorem pathParamScan_nil : pathParamScan [] = [] := rfl

theorem pathParamScan_step_some {c : Char} {rest cap rest3 : List Char}
    (h : scanStep (c :: rest) = some (cap, rest3)) :
    pathParamScan (c :: rest) = cap :: pathParamScan rest3 := by
  show pathParamScanAux (c :: rest).length (c :: rest) = _
  simp only [List.length_cons, pathParamScanAux, h]
  have hlt := scanStep_shrink h
  simp only [List.length_cons] at hlt
  rw [pathParamScanAux_mono rest.length rest3.length rest3 (by omega) (by omega)]
  rfl

theorem pathParamScan_step_none {c : Char} {rest : List Char}
    (h : scanStep (c :: rest) = none) :
    pathParamScan (c :: rest) = pathParamScan rest := by
  show pathParamScanAux (c :: rest).length (c :: rest) = _
  simp only [List.length_cons, pathParamScanAux, h]
  rfl

theorem queryScanAux_nil : ∀ f : Nat, queryScanAux f [] = [] := by
  intro f
  cases f <;> rfl

theorem queryScanAux_mono :
    ∀ f1 : Nat, ∀ f2 : Nat, ∀ s : List Char, s.length ≤ f1 → s.length ≤ f2 →
      queryScanAux f1 s = queryScanAux f2 s := by
  intro f1
  induction f1 with
  | zero =>
    intro f2 s h1 h2
    have : s = [] := by
      cases s
      · rfl
      · simp at h1
    subst this
    rw [queryScanAux_nil, queryScanAux_nil]
  | succ f ih =>
    intro f2 s h1 h2
    match s with
    | [] => rw [queryScanAux_nil, queryScanAux_nil]
    | c :: rest =>
      match f2, h2 with
      | g + 1, h2 =>
        simp only [queryScanAux]
        rcases hs : queryStep (c :: rest) with _ | ⟨w, rest3⟩
        · exact ih g rest (by simp at h1; omega) (by simp at h2; omega)
        · have hlt := queryStep_shrink hs
          simp only [List.length_cons] at hlt h1 h2
          show w :: queryScanAux f rest3 = w :: queryScanAux g rest3
          rw [ih g rest3 (by omega) (by omega)]

theorem queryScan_nil : queryScan [] = [] := rfl

theorem queryScan_step_some {c : Char} {rest w rest3 : List Char}
    (h : queryStep (c :: rest) = some (w, rest3)) :
    queryScan (c :: rest) = w :: queryScan rest3 := by
  show queryScanAux (c :: rest).length (c :: rest) = _
  simp only [List.length_cons, queryScanAux, h]
  have hlt := queryStep_shrink h
  simp only [List.length_cons] at hlt
  rw [queryScanAux_mono rest.length rest3.length rest3 (by omega) (by omega)]
  rfl

theorem queryScan_step_none {c : Char} {rest : List Char}
    (h : queryStep (c :: rest) = none) :
    queryScan (c :: rest) = queryScan rest := by
  show queryScanAux (c :: rest).length (c :: rest) = _
  simp only [List.length_cons, queryScanAux, h]
  rfl

theorem removeOccAux_nil (pat : List Char) : ∀ f : Nat, removeOccAux pat f [] = [] := by
  intro f
  cases f <;> rfl

theorem removeOccAux_mono (pat : List Char) :
    ∀ f1 : Nat, ∀ f2 : Nat, ∀ s : List Char, s.length ≤ f1 → s.length ≤ f2 →
      removeOccAux pat f1 s = removeOccAux pat f2 s := by
  intro f1
  induction f1 with
  | zero =>
    intro f2 s h1 h2
    have : s = [] := by
      cases s
      · rfl
      · simp at h1
    subst this
    rw [removeOccAux_nil, removeOccAux_nil]
  | succ f ih =>
    intro f2 s h1 h2
    match s with
    | [] => rw [removeOccAux_nil, removeOccAux_nil]
    | c :: rest =>
      match f2, h2 with
      | g + 1, h2 =>
        simp only [removeOccAux]
        split
        · rename_i hc
          have hp := hc.1
          simp only [List.length_cons] at h1 h2
          exact ih g _ (by simp only [List.length_drop, List.length_cons]; omega)
            (by simp only [List.length_drop, List.length_cons]; omega)
        · simp only [List.length_cons] at h1 h2
          rw [ih g rest (by omega) (by omega)]

theorem removeOcc_nil (pat : List Char) : removeOcc pat [] = [] := rfl

theorem removeOcc_step (pat : List Char) (c : Char) (rest : List Char) :
    removeOcc pat (c :: rest) =
      if 0 < pat.length ∧ pat = (c :: rest).take pat.length then
        removeOcc pat ((c :: rest).drop pat.length)
      else c :: removeOcc pat rest := by
  show removeOccAux pat (c :: rest).length (c :: rest) = _
  simp only [List.length_cons, removeOccAux]
  split
  · rename_i hc
    have hp := hc.1
    exact removeOccAux_mono pat rest.length ((c :: rest).drop pat.length).length _
      (by simp only [List.length_drop, List.length_cons]; omega) (by omega)
  · rfl

theorem firstOccDedupAux_nil : ∀ f : Nat, firstOccDedupAux f [] = [] := by
  intro f
  cases f <;> rfl

theorem firstOccDedupAux_mono :
    ∀ f1 : Nat, ∀ f2 : Nat, ∀ l : List (List Char), l.length ≤ f1 → l.length ≤ f2 →
      firstOccDedupAux f1 l = firstOccDedupAux f2 l := by
  intro f1
  induction f1 with
  | zero =>
    intro f2 l h1 h2
    have : l = [] := by
      cases l
      · rfl
      · simp at h1
    subst this
    rw [firstOccDedupAux_nil, firstOccDedupAux_nil]
  | succ f ih =>
    intro f2 l h1 h2
    match l with
    | [] => rw [firstOccDedupAux_nil, firstOccDedupAux_nil]
    | c :: cs =>
      match f2, h2 with
      | g + 1, h2 =>
        simp only [firstOccDedupAux, List.cons.injEq, true_and]
        have hfl := List.length_filter_le (fun x => x ≠ c) cs
        simp only [List.length_cons] at h1 h2
        exact ih g _ (by omega) (by omega)

theorem firstOccDedup_nil : firstOccDedup [] = [] := rfl

theorem firstOccDedup_cons (c : List Char) (cs : List (List Char)) :
    firstOccDedup (c :: cs) = c :: firstOccDedup (cs.filter (fun x => x ≠ c)) := by
  show firstOccDedupAux (c :: cs).length (c :: cs) = _
  simp only [List.length_cons, firstOccDedupAux, List.cons.injEq, true_and]
  have hfl := List.length_filter_le (fun x => x ≠ c) cs
  exact firstOccDedupAux_mono cs.length _ _ (by omega) (by omega)

/-- The counter dict after processing the bases `pre` agrees with the
occurrence counts of `pre`; under that invariant, the `i`-th allocation of a
run is determined by the occurrence count of its base among its predecessors. -/
theorem allocRun_spec (calls : List (List Char × List Char)) :
    ∀ (pre : List (List Char)) (st : CounterState),
      (∀ b, st b = if pre.count b = 0 then none else some (pre.count b - 1)) →
      ∀ i : Nat, (allocRun st calls)[i]? =
        ((calls.map (fun mp => opBase mp.1 mp.2))[i]?).map
          (fun b => outFor (pre ++ (calls.map (fun mp => opBase mp.1 mp.2)).take i) b) := by
  induction calls with
  | nil => intro pre st hst i; simp [allocRun]
  | cons mp rest ih =>
    intro pre st hst i
    have hb0 := hst (opBase mp.1 mp.2)
    match i with
    | 0 =>
      simp only [allocRun, List.map_cons, List.take_zero, List.append_nil,
        List.getElem?_cons_zero, Option.map_some]
      by_cases hc : pre.count (opBase mp.1 mp.2) = 0
      · rw [if_pos hc] at hb0
        simp [allocate, hb0, outFor, hc]
      · rw [if_neg hc] at hb0
        have harith : pre.count (opBase mp.1 mp.2) - 1 + 1 = pre.count (opBase mp.1 mp.2) := by
          omega
        simp [allocate, hb0, outFor, hc, harith]
    | j + 1 =>
      have hstep :
          (allocRun st (mp :: rest))[j + 1]? =
            (allocRun (allocate st (opBase mp.1 mp.2)).2 rest)[j]? := by
        simp [allocRun]
      rw [hstep]
      have hinv : ∀ b, (allocate st (opBase mp.1 mp.2)).2 b =
          if (pre ++ [opBase mp.1 mp.2]).count b = 0 then none
          else some ((pre ++ [opBase mp.1 mp.2]).count b - 1) := by
        intro b
        by_cases hbeq : b = opBase mp.1 mp.2
        · rw [hbeq]
          have hcnt : (pre ++ [opBase mp.1 mp.2]).count (opBase mp.1 mp.2) =
              pre.count (opBase mp.1 mp.2) + 1 := by
            simp [List.count_append]
          rw [hcnt]
          by_cases hc : pre.count (opBase mp.1 mp.2) = 0
          · rw [if_pos hc] at hb0
            simp [allocate, hb0, hc]
          · rw [if_neg hc] at hb0
            have harith2 : pre.count (opBase mp.1 mp.2) - 1 + 1 =
                pre.count (opBase mp.1 mp.2) := by
              omega
            simp [allocate, hb0, harith2]
        · have hcnt : (pre ++ [opBase mp.1 mp.2]).count b = pre.count b := by
            have h0 : List.count b [opBase mp.1 mp.2] = 0 := by
              rw [List.count_eq_zero]
              simp [hbeq]
            rw [List.count_append, h0]
            omega
          rw [hcnt]
          by_cases hc : pre.count (opBase mp.1 mp.2) = 0
          · rw [if_pos hc] at hb0
            simp only [allocate, hb0]
            rw [if_neg hbeq, hst b]
          · rw [if_neg hc] at hb0
            simp only [allocate, hb0]
            rw [if_neg hbeq, hst b]
      have := ih (pre ++ [opBase mp.1 mp.2]) _ hinv j
      rw [this]
      simp only [List.map_cons, List.getElem?_cons_succ, List.take_succ_cons,
        List.append_assoc, List.cons_append, List.nil_append]

/-- Distinct repeat counts give distinct allocated identifiers for one base. -/
theorem outFor_injective_counts {ctx1 ctx2 : List (List Char)} {b : List Char}
    (h : ctx1.count b < ctx2.count b) : outFor ctx1 b ≠ outFor ctx2 b := by
  intro heq
  by_cases h1 : ctx1.count b = 0
  · rw [outFor, if_pos h1, outFor, if_neg (by omega)] at heq
    have := congrArg List.length heq
    simp at this
  · rw [outFor, if_neg h1, outFor, if_neg (by omega)] at heq
    have hdrop := congrArg (fun l => l.drop (b.length + 1)) heq
    simp only at hdrop
    have harr : ∀ n : Nat, b ++ '_' :: decDigits n = (b ++ ['_']) ++ decDigits n := by
      intro n; simp
    rw [harr, harr] at hdrop
    have hl : (b ++ ['_']).length = b.length + 1 := by simp
    rw [← hl, List.drop_left, List.drop_left] at hdrop
    exact absurd (decDigits_injective hdrop) (by omega)

/-- C1: base construction and per-base allocation behaviour are as described —
the first request for a base returns it unchanged and the `n`-th repeat
returns `base + "_" + n` — and identifiers repeated for one base never
collide; but ACROSS DIFFERENT bases the allocator can return the same
identifier twice (see the counterexample), so the claim's global uniqueness is
amended to per-base uniqueness. -/
theorem C1_allocator_amended (calls : List (List Char × List Char)) :
    (∀ i : Nat, (allocRun emptyCounter calls)[i]? =
      ((calls.map (fun mp => opBase mp.1 mp.2))[i]?).map
        (fun b => outFor ((calls.map (fun mp => opBase mp.1 mp.2)).take i) b)) ∧
    (∀ i j : Nat, ∀ b oi oj : List Char, i < j →
      (calls.map (fun mp => opBase mp.1 mp.2))[i]? = some b →
      (calls.map (fun mp => opBase mp.1 mp.2))[j]? = some b →
      (allocRun emptyCounter calls)[i]? = some oi →
      (allocRun emptyCounter calls)[j]? = some oj → oi ≠ oj) := by
  have hmain := allocRun_spec calls [] emptyCounter (by intro b; simp [emptyCounter])
  simp only [List.nil_append] at hmain
  constructor
  · exact hmain
  · intro i j b oi oj hij hbi hbj hoi hoj
    set bases := calls.map (fun mp => opBase mp.1 mp.2) with hbases
    have hoi' : oi = outFor (bases.take i) b := by
      have := hmain i
      rw [hoi, hbi] at this
      simpa using this
    have hoj' : oj = outFor (bases.take j) b := by
      have := hmain j
      rw [hoj, hbj] at this
      simpa using this
    have hcount : (bases.take i).count b < (bases.take j).count b := by
      have hstep : (bases.take (i + 1)).count b = (bases.take i).count b + 1 := by
        rw [List.take_succ]
        rw [hbi]
        simp [List.count_append]
      have hmono : (bases.take (i + 1)).count b ≤ (bases.take j).count b := by
        have hsub : List.Sublist (bases.take (i + 1)) (bases.take j) := by
          have heq : (bases.take j).take (i + 1) = bases.take (i + 1) := by
            rw [List.take_take]
            congr 1
            omega
          rw [← heq]
          exact List.take_sublist _ _
        exact hsub.count_le b
      omega
    rw [hoi', hoj']
    exact outFor_injective_counts hcount

/-- C1 counterexample: the sequence of allocations for requests
`(get, /a), (get, /a), (get, /a/1)` returns `get_a_1` twice — once as the
first-collision suffix of base `get_a`, once as the fresh base of
`(get, /a/1)` — so the allocator does return the same identifier twice
within one build, falsifying the claim's global-uniqueness sentence. -/
theorem C1_counterexample :
    allocRun emptyCounter
        [("get".toList, "/a".toList), ("get".toList, "/a".toList),
         ("get".toList, "/a/1".toList)] =
      ["get_a".toList, "get_a_1".toList, "get_a_1".toList] ∧
    ¬ (allocRun emptyCounter
        [("get".toList, "/a".toList), ("get".toList, "/a".toList),
         ("get".toList, "/a/1".toList)]).Nodup := by
  constructor
  · rfl
  · decide

theorem C1_allocator_amended_witness :
    (allocRun emptyCounter
        [("get".toList, "/a".toList), ("get".toList, "/a".toList)])[0]? =
      some ("get_a".toList) ∧
    (allocRun emptyCounter
        [("get".toList, "/a".toList), ("get".toList, "/a".toList)])[1]? =
      some ("get_a_1".toList) ∧
    "get_a".toList ≠ "get_a_1".toList := by
  refine ⟨by decide, by decide, ?_⟩
  exact (C1_allocator_amended
      [("get".toList, "/a".toList), ("get".toList, "/a".toList)]).2 0 1
    ("get_a".toList) ("get_a".toList) ("get_a_1".toList)
    (by decide) (by decide) (by decide) (by decide) (by decide)

/-- `str.replace(pat, '')` leaves a string alone when `pat` occurs nowhere in
it (occurrence at `i` meaning `pat` is the next `pat.length` characters). -/
theorem removeOcc_of_no_occ (pat : List Char) :
    ∀ s : List Char, (∀ i < s.length, pat ≠ (s.drop i).take pat.length) →
      removeOcc pat s = s := by
  intro s
  induction s with
  | nil => intro h; rfl
  | cons c rest ih =>
    intro h
    rw [removeOcc_step]
    have h0 : pat ≠ (c :: rest).take pat.length := by
      have := h 0 (by simp)
      simpa using this
    rw [if_neg (by intro hc; exact h0 hc.2)]
    rw [ih]
    intro i hi
    have := h (i + 1) (by simp; omega)
    simpa using this

/-- `str.replace(pat, '')` on a string ending in `pat` whose only occurrence
is the trailing one removes exactly that trailing copy. -/
theorem removeOcc_trailing (pat : List Char) (hp : 0 < pat.length) :
    ∀ b : List Char, (∀ i < b.length, pat ≠ ((b ++ pat).drop i).take pat.length) →
      removeOcc pat (b ++ pat) = b := by
  intro b
  induction b with
  | nil =>
    intro h
    match pat, hp with
    | c :: pr, hp =>
      simp only [List.nil_append]
      rw [removeOcc_step]
      rw [if_pos ⟨hp, by rw [List.take_length]⟩]
      rw [List.drop_length]
      rfl
  | cons c rest ih =>
    intro h
    have h0 : pat ≠ ((c :: rest) ++ pat).take pat.length := by
      have := h 0 (by simp)
      simpa using this
    rw [List.cons_append, removeOcc_step]
    rw [if_neg (by
      intro hc
      exact h0 (by simpa using hc.2))]
    rw [ih]
    intro i hi
    have := h (i + 1) (by simp; omega)
    simpa using this

/-- C6 counterexample: for base URL `http://h/Help/v1` the emitted server url
is `http://h/v1` — the non-trailing `/Help` segment is removed, not
preserved as the claim states. -/
theorem C6_counterexample :
    ((convert_to_swagger "http://h/Help/v1".toList []).servers).map Server.url =
      ["http://h/v1".toList] ∧
    "http://h/v1".toList ≠ "http://h/Help/v1".toList := by
  constructor
  · decide
  · decide

/-- C6 amended: the document carries exactly one server entry; its url is the
base URL with EVERY occurrence of `/Help` removed and then every occurrence
of `/help` removed (not only a trailing segment); in particular, when the
base URL is `b ++ "/Help"` and neither pattern occurs inside `b` (nor across
the boundary), the url is exactly `b`, the trailing-segment strip the spec
describes. -/
theorem C6_servers_amended (base b : List Char) (groups : List (List Char × Group))
    (hb : base = b ++ "/Help".toList)
    (h1 : ∀ i < b.length, "/Help".toList ≠ ((b ++ "/Help".toList).drop i).take 5)
    (h2 : ∀ i < b.length, "/help".toList ≠ (b.drop i).take 5) :
    (convert_to_swagger base groups).servers =
      [{ url := b, description := "API服务器".toList }] ∧
    (convert_to_swagger base groups).servers.length = 1 := by
  have hstep1 : removeOcc "/Help".toList base = b := by
    rw [hb]
    exact removeOcc_trailing "/Help".toList (by decide) b (by simpa using h1)
  have hstep2 : removeOcc "/help".toList b = b :=
    removeOcc_of_no_occ "/help".toList b (by simpa using h2)
  constructor
  · show [Server.mk (removeOcc "/help".toList (removeOcc "/Help".toList base))
        ("API服务器".toList)] = _
    rw [hstep1, hstep2]
  · rfl

theorem C6_servers_amended_witness :
    (convert_to_swagger "http://x/Help".toList []).servers =
      [{ url := "http://x".toList, description := "API服务器".toList }] := by
  exact (C6_servers_amended "http://x/Help".toList "http://x".toList []
    (by decide) (by decide) (by decide)).1

/-- C8 counterexample: a group `Orders` with empty description yields the
Chinese tag description `Orders 相关接口`, not the English string
`Orders related interfaces` the claim gives. -/
theorem C8_counterexample :
    (convert_to_swagger []
        [("Orders".toList, { description := [], apis := [] })]).tags =
      [{ name := "Orders".toList, description := "Orders 相关接口".toList }] ∧
    (convert_to_swagger []
        [("Orders".toList, { description := [], apis := [] })]).tags ≠
      [{ name := "Orders".toList,
         description := "Orders related interfaces".toList }] := by
  constructor
  · decide
  · decide

theorem buildTags_acc (groups : List (List Char × Group)) :
    ∀ acc : List Tag, buildTags groups acc = acc ++ groups.map (fun gp => mkTag gp.1 gp.2) := by
  induction groups with
  | nil => intro acc; simp [buildTags]
  | cons gp rest ih =>
    intro acc
    rw [buildTags, ih]
    simp

/-- C8 amended: the tags array carries, in group order, one entry per group
with the group identifier as name and the group description as description;
an empty description is replaced by the synthesized CHINESE string
`f-string group_name ++ " 相关接口"` (the claim's English
`"<group> related interfaces"` is only a gloss and never appears). -/
theorem C8_tags_amended (base : List Char) (groups : List (List Char × Group)) (i : Nat) :
    ((convert_to_swagger base groups).tags)[i]? =
      (groups[i]?).map (fun gp =>
        Tag.mk gp.1
          (if gp.2.description.isEmpty then gp.1 ++ " 相关接口".toList
           else gp.2.description)) := by
  show (buildTags groups [])[i]? = _
  rw [buildTags_acc groups []]
  simp only [List.nil_append, List.getElem?_map]
  rfl

/-- The append-if-unseen loop emits exactly the not-yet-seen first
occurrences, after the accumulated prefix. -/
theorem addParams_fst (mk : List Char → Param) :
    ∀ (caps : List (List Char)) (acc : List Param) (seen : List (List Char)),
      (addParams mk caps acc seen).1 = acc ++ (newFirsts caps seen).map mk := by
  intro caps
  induction caps with
  | nil => intro acc seen; simp [addParams, newFirsts]
  | cons c cs ih =>
    intro acc seen
    by_cases hc : c ∈ seen
    · simp only [addParams, newFirsts, if_pos hc]
      exact ih acc seen
    · simp only [addParams, newFirsts, if_neg hc]
      rw [ih]
      simp

/-- The seen-set after the append-if-unseen loop contains exactly the old
seen names and the newly emitted ones. -/
theorem addParams_snd_mem (mk : List Char → Param) :
    ∀ (caps : List (List Char)) (acc : List Param) (seen : List (List Char)) (x : List Char),
      x ∈ (addParams mk caps acc seen).2 ↔ x ∈ seen ∨ x ∈ newFirsts caps seen := by
  intro caps
  induction caps with
  | nil => intro acc seen x; simp [addParams, newFirsts]
  | cons c cs ih =>
    intro acc seen x
    by_cases hc : c ∈ seen
    · simp only [addParams, newFirsts, if_pos hc]
      exact ih acc seen x
    · simp only [addParams, newFirsts, if_neg hc]
      rw [ih]
      simp only [List.mem_cons]
      tauto

/-- The newly emitted names avoid the seen set and contain no duplicate. -/
theorem newFirsts_nodup_fresh :
    ∀ (caps : List (List Char)) (seen : List (List Char)),
      (newFirsts caps seen).Nodup ∧ ∀ x ∈ newFirsts caps seen, x ∉ seen := by
  intro caps
  induction caps with
  | nil => intro seen; simp [newFirsts]
  | cons c cs ih =>
    intro seen
    by_cases hc : c ∈ seen
    · simpa only [newFirsts, if_pos hc] using ih seen
    · simp only [newFirsts, if_neg hc]
      obtain ⟨hnd, hfresh⟩ := ih (c :: seen)
      refine ⟨List.nodup_cons.mpr ⟨?_, hnd⟩, ?_⟩
      · intro hmem
        exact hfresh c hmem (by simp)
      · intro x hx
        rcases List.mem_cons.mp hx with hx | hx
        · subst hx; exact hc
        · intro hxs
          exact hfresh x hx (by simp [hxs])

/-- The emitted first occurrences are the first-occurrence dedup of the
not-seen captures. -/
theorem newFirsts_eq_dedup :
    ∀ (caps : List (List Char)) (seen : List (List Char)),
      newFirsts caps seen = firstOccDedup (caps.filter (fun x => x ∉ seen)) := by
  intro caps
  induction caps with
  | nil => intro seen; simp [newFirsts, firstOccDedup_nil]
  | cons c cs ih =>
    intro seen
    by_cases hc : c ∈ seen
    · simp only [newFirsts, if_pos hc]
      rw [ih seen]
      congr 1
      simp [List.filter_cons, hc]
    · simp only [newFirsts, if_neg hc]
      rw [List.filter_cons, if_pos (by simp [hc])]
      rw [firstOccDedup_cons]
      congr 1
      rw [ih (c :: seen)]
      congr 1
      rw [List.filter_filter]
      apply List.filter_congr
      intro x hx
      simp only [List.mem_cons, not_or, Bool.decide_and, decide_not]

theorem mem_firstOccDedup_bounded :
    ∀ (n : Nat) (l : List (List Char)), l.length ≤ n →
      ∀ x, (x ∈ firstOccDedup l ↔ x ∈ l) := by
  intro n
  induction n with
  | zero =>
    intro l hl x
    have : l = [] := by
      cases l
      · rfl
      · simp at hl
    subst this
    simp [firstOccDedup_nil]
  | succ n ih =>
    intro l hl x
    match l with
    | [] => simp [firstOccDedup_nil]
    | c :: cs =>
      have hlen : (cs.filter (fun y => y ≠ c)).length ≤ n := by
        have := List.length_filter_le (fun y => y ≠ c) cs
        simp only [List.length_cons] at hl
        omega
      rw [firstOccDedup_cons]
      simp only [List.mem_cons]
      constructor
      · rintro (rfl | hx)
        · left; rfl
        · right
          exact List.mem_of_mem_filter ((ih _ hlen x).mp hx)
      · rintro (rfl | hx)
        · left; rfl
        · by_cases hxc : x = c
          · left; exact hxc
          · right
            exact (ih _ hlen x).mpr (List.mem_filter.mpr ⟨hx, by simp [hxc]⟩)

/-- Membership is preserved by first-occurrence deduplication. -/
theorem mem_firstOccDedup (l : List (List Char)) (x : List Char) :
    x ∈ firstOccDedup l ↔ x ∈ l :=
  mem_firstOccDedup_bounded l.length l (by omega) x

/-- The two phases of `extract_parameters_from_name`, flattened: the path
parameters built from the fresh path captures, then the query parameters
built from the query captures not seen in phase one. -/
theorem extract_params_decomp (name : List Char) :
    extract_parameters_from_name name =
      (newFirsts (pathParamScan name) []).map mkPathParam ++
      (newFirsts (queryCapsOf name)
        (addParams mkPathParam (pathParamScan name) [] []).2).map mkQueryParam := by
  unfold extract_parameters_from_name queryCapsOf
  cases h : afterFirstQ name with
  | none => simp [addParams_fst, newFirsts]
  | some qp =>
    show (addParams mkQueryParam (queryScan qp)
        (addParams mkPathParam (pathParamScan name) [] []).1
        (addParams mkPathParam (pathParamScan name) [] []).2).1 =
      (newFirsts (pathParamScan name) []).map mkPathParam ++
      (newFirsts (queryScan qp)
        (addParams mkPathParam (pathParamScan name) [] []).2).map mkQueryParam
    rw [addParams_fst, addParams_fst]
    simp

/-- The seen-set after phase one holds exactly the path captures. -/
theorem mem_phase1_seen (name : List Char) (x : List Char) :
    x ∈ (addParams mkPathParam (pathParamScan name) [] []).2 ↔
      x ∈ pathParamScan name := by
  rw [addParams_snd_mem]
  simp only [List.not_mem_nil, false_or]
  rw [newFirsts_eq_dedup, mem_firstOccDedup]
  constructor
  · intro hx
    exact List.mem_of_mem_filter hx
  · intro hx
    exact List.mem_filter.mpr ⟨hx, by simp⟩

/-- C3: the extracted parameter list splits into a path group followed by a
query group; names never repeat; the path group lists the path captures in
first-seen order with location `path`, required; the query group lists the
query captures not already seen as path captures, in first-seen order, with
location `query`, optional; and every path capture is represented by exactly
one parameter, carrying location `path`. -/
theorem C3_extract_parameters (name : List Char) :
    ∃ ps qs : List Param,
      extract_parameters_from_name name = ps ++ qs ∧
      ps.map Param.name = firstOccDedup (pathParamScan name) ∧
      qs.map Param.name =
        firstOccDedup ((queryCapsOf name).filter
          (fun x => x ∉ pathParamScan name)) ∧
      (∀ prm ∈ ps, prm.location = "path".toList ∧ prm.required = true) ∧
      (∀ prm ∈ qs, prm.location = "query".toList ∧ prm.required = false) ∧
      ((extract_parameters_from_name name).map Param.name).Nodup ∧
      (∀ n ∈ pathParamScan name,
        ∃ prm ∈ extract_parameters_from_name name,
          prm.name = n ∧ prm.location = "path".toList) := by
  have hps : ((newFirsts (pathParamScan name) []).map mkPathParam).map Param.name =
      newFirsts (pathParamScan name) [] := by
    rw [List.map_map]
    have : (Param.name ∘ mkPathParam) = id := by
      funext n
      rfl
    rw [this, List.map_id]
  have hqs : ((newFirsts (queryCapsOf name)
        (addParams mkPathParam (pathParamScan name) [] []).2).map mkQueryParam).map
        Param.name =
      newFirsts (queryCapsOf name)
        (addParams mkPathParam (pathParamScan name) [] []).2 := by
    rw [List.map_map]
    have : (Param.name ∘ mkQueryParam) = id := by
      funext n
      rfl
    rw [this, List.map_id]
  have hpsn : newFirsts (pathParamScan name) [] = firstOccDedup (pathParamScan name) := by
    rw [newFirsts_eq_dedup]
    congr 1
    have : ∀ l : List (List Char), l.filter (fun x => x ∉ ([] : List (List Char))) = l := by
      intro l
      induction l with
      | nil => rfl
      | cons a t ih => simp [List.filter_cons, ih]
    exact this _
  have hqsn : newFirsts (queryCapsOf name)
        (addParams mkPathParam (pathParamScan name) [] []).2 =
      firstOccDedup ((queryCapsOf name).filter (fun x => x ∉ pathParamScan name)) := by
    rw [newFirsts_eq_dedup]
    congr 1
    apply List.filter_congr
    intro x hx
    have := mem_phase1_seen name x
    by_cases hmem : x ∈ pathParamScan name
    · simp [hmem, this.mpr hmem]
    · simp only [hmem, decide_not]
      have : x ∉ (addParams mkPathParam (pathParamScan name) [] []).2 := by
        intro hc
        exact hmem (this.mp hc)
      simp [this]
  refine ⟨(newFirsts (pathParamScan name) []).map mkPathParam,
          (newFirsts (queryCapsOf name)
            (addParams mkPathParam (pathParamScan name) [] []).2).map mkQueryParam,
          extract_params_decomp name, ?_, ?_, ?_, ?_, ?_, ?_⟩
  · rw [hps, hpsn]
  · rw [hqs, hqsn]
  · intro prm hprm
    obtain ⟨n, hn, rfl⟩ := List.mem_map.mp hprm
    exact ⟨rfl, rfl⟩
  · intro prm hprm
    obtain ⟨n, hn, rfl⟩ := List.mem_map.mp hprm
    exact ⟨rfl, rfl⟩
  · rw [extract_params_decomp name, List.map_append, hps, hqs]
    apply List.Nodup.append
    · exact (newFirsts_nodup_fresh (pathParamScan name) []).1
    · exact (newFirsts_nodup_fresh (queryCapsOf name) _).1
    · intro a ha hb
      have ha' : a ∈ pathParamScan name := by
        rw [hpsn, mem_firstOccDedup] at ha
        exact ha
      have hfresh := (newFirsts_nodup_fresh (queryCapsOf name)
        (addParams mkPathParam (pathParamScan name) [] []).2).2 a hb
      exact hfresh ((mem_phase1_seen name a).mpr ha')
  · intro n hn
    have hn' : n ∈ newFirsts (pathParamScan name) [] := by
      rw [hpsn, mem_firstOccDedup]
      exact hn
    refine ⟨mkPathParam n, ?_, rfl, rfl⟩
    rw [extract_params_decomp name]
    exact List.mem_append_left _ (List.mem_map_of_mem mkPathParam hn')

theorem takeWhile_append_of_all (pr : Char → Bool) :
    ∀ (w x : List Char), (∀ c ∈ w, pr c = true) →
      (w ++ x).takeWhile pr = w ++ x.takeWhile pr := by
  intro w
  induction w with
  | nil => intro x h; simp
  | cons c w' ih =>
    intro x h
    have hc : pr c = true := h c (by simp)
    simp only [List.cons_append, List.takeWhile_cons, hc, if_pos]
    rw [ih x (fun d hd => h d (by simp [hd]))]

theorem dropWhile_append_of_all (pr : Char → Bool) :
    ∀ (w x : List Char), (∀ c ∈ w, pr c = true) →
      (w ++ x).dropWhile pr = x.dropWhile pr := by
  intro w
  induction w with
  | nil => intro x h; simp
  | cons c w' ih =>
    intro x h
    have hc : pr c = true := h c (by simp)
    simp only [List.cons_append, List.dropWhile_cons, hc, if_pos]
    exact ih x (fun d hd => h d (by simp [hd]))

theorem takeWhile_append_of_stop (pr : Char → Bool) :
    ∀ (x q : List Char), x.dropWhile pr ≠ [] →
      (x ++ q).takeWhile pr = x.takeWhile pr := by
  intro x
  induction x with
  | nil => intro q h; simp [List.dropWhile] at h
  | cons c x' ih =>
    intro q h
    by_cases hc : pr c = true
    · simp only [List.cons_append, List.takeWhile_cons, hc, if_pos]
      rw [ih q (by simpa [List.dropWhile_cons, hc] using h)]
    · have hc' : pr c = false := by
        cases hpc : pr c
        · rfl
        · exact absurd hpc hc
      simp [List.takeWhile_cons, hc']

theorem dropWhile_append_of_stop (pr : Char → Bool) :
    ∀ (x q : List Char), x.dropWhile pr ≠ [] →
      (x ++ q).dropWhile pr = x.dropWhile pr ++ q := by
  intro x
  induction x with
  | nil => intro q h; simp [List.dropWhile] at h
  | cons c x' ih =>
    intro q h
    by_cases hc : pr c = true
    · simp only [List.cons_append, List.dropWhile_cons, hc, if_pos]
      rw [ih q (by simpa [List.dropWhile_cons, hc] using h)]
    · have hc' : pr c = false := by
        cases hpc : pr c
        · rfl
        · exact absurd hpc hc
      simp [List.dropWhile_cons, hc']

theorem drop_length_takeWhile (pr : Char → Bool) :
    ∀ l : List Char, l.drop (l.takeWhile pr).length = l.dropWhile pr := by
  intro l
  induction l with
  | nil => rfl
  | cons c l' ih =>
    by_cases hc : pr c = true
    · simp only [List.takeWhile_cons, hc, if_pos, List.length_cons, List.drop_succ_cons,
        List.dropWhile_cons]
      exact ih
    · have hc' : pr c = false := by
        cases hpc : pr c
        · rfl
        · exact absurd hpc hc
      simp [List.takeWhile_cons, List.dropWhile_cons, hc']

theorem dropWhile_idem (pr : Char → Bool) :
    ∀ l : List Char, (l.dropWhile pr).dropWhile pr = l.dropWhile pr := by
  intro l
  induction l with
  | nil => rfl
  | cons c l' ih =>
    by_cases hc : pr c = true
    · simp only [List.dropWhile_cons, hc, if_pos]
      exact ih
    · have hc' : pr c = false := by
        cases hpc : pr c
        · rfl
        · exact absurd hpc hc
      simp [List.dropWhile_cons, hc']

/-- The lazy tail of the route regex captures exactly `p'` when `p'` is
nonempty, free of newlines and question marks, and followed either by the end
of input or by a `?`. -/
theorem lazyPath_complete :
    ∀ (p' q : List Char), p' ≠ [] → (∀ c ∈ p', c ≠ '\n') → (∀ c ∈ p', c ≠ '?') →
      (q = [] ∨ q.head? = some '?') → lazyPath (p' ++ q) = some p' := by
  intro p'
  induction p' with
  | nil => intro q h; exact absurd rfl h
  | cons c p'' ih =>
    intro q hne hn hq hstop
    have hcn : c ≠ '\n' := hn c (by simp)
    match p'' with
    | [] =>
      have hstopq : stopAt q = true := by
        rcases hstop with rfl | hh
        · rfl
        · simp [stopAt, hh]
      have e1 : lazyPath ([c] ++ q) =
          if c = '\n' then none
          else if stopAt q then some [c]
          else (lazyPath q).map (c :: ·) := rfl
      rw [e1, if_neg hcn, hstopq]
      simp
    | d :: t =>
      have hdq : d ≠ '?' := hq d (by simp)
      have hdn : d ≠ '\n' := hn d (by simp)
      have hstopdt : stopAt ((d :: t) ++ q) = false := by
        simp only [stopAt, List.cons_append, List.head?_cons, dollarAt]
        simp [hdq, hdn]
      have hrec := ih q (by simp) (fun e he => hn e (by simp [he]))
        (fun e he => hq e (by simp [he])) hstop
      have e1 : lazyPath ((c :: d :: t) ++ q) =
          if c = '\n' then none
          else if stopAt ((d :: t) ++ q) then some [c]
          else (lazyPath ((d :: t) ++ q)).map (c :: ·) := rfl
      rw [e1, if_neg hcn, hstopdt, if_neg (by simp), hrec]
      rfl

/-- A successful verb match identifies a member of the alternation whose
lowercased form is the corresponding prefix of the input. -/
theorem findVerb_eq_some :
    ∀ (vs : List (List Char)) (s v rest : List Char),
      findVerb vs s = some (v, rest) →
      v ∈ vs ∧ lowerList (s.take v.length) = v ∧ rest = s.drop v.length := by
  intro vs
  induction vs with
  | nil => intro s v rest h; simp [findVerb] at h
  | cons v0 vs' ih =>
    intro s v rest h
    rw [findVerb] at h
    split at h
    · rename_i hcond
      simp only [Option.some.injEq, Prod.mk.injEq] at h
      obtain ⟨rfl, rfl⟩ := h
      exact ⟨by simp, hcond, rfl⟩
    · obtain ⟨hm, h2, h3⟩ := ih s v rest h
      exact ⟨by simp [hm], h2, h3⟩

/-- On input `vc ++ rest` where `vc` is a case variant of the verb `v`, the
alternation matches exactly `v` and leaves `rest`. -/
theorem findVerb_prefix (v vc rest : List Char) (hv : v ∈ httpVerbs)
    (hvc : lowerList vc = v) : findVerb httpVerbs (vc ++ rest) = some (v, rest) := by
  have hlen : vc.length = v.length := by
    rw [← hvc]
    simp [lowerList]
  have htake : ∀ n : Nat, n ≤ v.length → lowerList ((vc ++ rest).take n) = v.take n := by
    intro n hn
    rw [List.take_append_of_le_length (by omega)]
    show lowerList (vc.take n) = v.take n
    rw [lowerList, List.map_take]
    show (lowerList vc).take n = v.take n
    rw [hvc]
  have hlonger : ∀ n : Nat, v.length < n →
      lowerList ((vc ++ rest).take n) = v ++ lowerList (rest.take (n - v.length)) := by
    intro n hn
    rw [List.take_append_eq_append_take, List.take_of_length_le (by omega)]
    show lowerList (vc ++ rest.take (n - vc.length)) = _
    rw [lowerList, List.map_append]
    show lowerList vc ++ lowerList (rest.take (n - vc.length)) = _
    rw [hvc, hlen]
  have hdrop : ∀ n : Nat, n = v.length → (vc ++ rest).drop n = rest := by
    intro n hn
    rw [hn, ← hlen, List.drop_left]
  have hpfx : ∀ (v2 : List Char), v2.length ≤ v.length → v.take v2.length ≠ v2 →
      lowerList ((vc ++ rest).take v2.length) ≠ v2 := by
    intro v2 hle hneq hcontra
    rw [htake v2.length hle] at hcontra
    exact hneq hcontra
  have hpfx2 : ∀ (v2 : List Char), v.length < v2.length → v2.take v.length ≠ v →
      lowerList ((vc ++ rest).take v2.length) ≠ v2 := by
    intro v2 hlt hneq hcontra
    rw [hlonger v2.length hlt] at hcontra
    have h3 := congrArg (fun l => l.take v.length) hcontra
    simp only at h3
    rw [List.take_left] at h3
    exact hneq h3.symm
  fin_cases hv
  · simp only [findVerb, httpVerbs]
    rw [htake ((['g', 'e', 't'] : List Char).length) (by decide), if_pos (by decide)]
    rw [hdrop ((['g', 'e', 't'] : List Char).length) (by decide)]
  · simp only [findVerb, httpVerbs]
    rw [if_neg (hpfx ['g', 'e', 't'] (by decide) (by decide))]
    rw [htake ((['p', 'o', 's', 't'] : List Char).length) (by decide), if_pos (by decide)]
    rw [hdrop ((['p', 'o', 's', 't'] : List Char).length) (by decide)]
  · simp only [findVerb, httpVerbs]
    rw [if_neg (hpfx ['g', 'e', 't'] (by decide) (by decide))]
    rw [if_neg (hpfx2 ['p', 'o', 's', 't'] (by decide) (by decide))]
    rw [htake ((['p', 'u', 't'] : List Char).length) (by decide), if_pos (by decide)]
    rw [hdrop ((['p', 'u', 't'] : List Char).length) (by decide)]
  · simp only [findVerb, httpVerbs]
    rw [if_neg (hpfx ['g', 'e', 't'] (by decide) (by decide))]
    rw [if_neg (hpfx ['p', 'o', 's', 't'] (by decide) (by decide))]
    rw [if_neg (hpfx ['p', 'u', 't'] (by decide) (by decide))]
    rw [htake ((['d', 'e', 'l', 'e', 't', 'e'] : List Char).length) (by decide),
      if_pos (by decide)]
    rw [hdrop ((['d', 'e', 'l', 'e', 't', 'e'] : List Char).length) (by decide)]
  · simp only [findVerb, httpVerbs]
    rw [if_neg (hpfx ['g', 'e', 't'] (by decide) (by decide))]
    rw [if_neg (hpfx ['p', 'o', 's', 't'] (by decide) (by decide))]
    rw [if_neg (hpfx ['p', 'u', 't'] (by decide) (by decide))]
    rw [if_neg (hpfx2 ['d', 'e', 'l', 'e', 't', 'e'] (by decide) (by decide))]
    rw [htake ((['p', 'a', 't', 'c', 'h'] : List Char).length) (by decide),
      if_pos (by decide)]
    rw [hdrop ((['p', 'a', 't', 'c', 'h'] : List Char).length) (by decide)]

/-- C2: on a well-formed name — a case-variant of one of the five verbs,
then whitespace, then a path (no `?`, no newline, not all whitespace), then
either nothing or a `?`-suffix — the parser returns the lowercased verb and
the path with surrounding whitespace stripped, then surrounding slashes
stripped, then a single `/` prefixed; in particular the result starts
with `/`. -/
theorem C2_parse_wellformed (v vc w p q : List Char)
    (hv : v ∈ httpVerbs) (hvc : lowerList vc = v)
    (hw1 : w ≠ []) (hw2 : ∀ c ∈ w, isSpaceRe c = true)
    (hp1 : ∀ c ∈ p, c ≠ '?') (hp2 : ∀ c ∈ p, c ≠ '\n')
    (hp3 : p.dropWhile isSpaceRe ≠ [])
    (hq : q = [] ∨ q.head? = some '?') :
    extract_path_and_method (vc ++ w ++ p ++ q) =
      (v, '/' :: pyStrip (fun c => c = '/') (pyStrip isSpaceRe p)) := by
  rw [show vc ++ w ++ p ++ q = vc ++ (w ++ (p ++ q)) by simp [List.append_assoc]]
  have hfv := findVerb_prefix v vc (w ++ (p ++ q)) hv hvc
  have hsubp : ∀ c ∈ p.dropWhile isSpaceRe, c ∈ p := by
    intro c hc
    exact (List.dropWhile_sublist _).mem hc
  have hlazy : lazyPath ((p.dropWhile isSpaceRe) ++ q) = some (p.dropWhile isSpaceRe) :=
    lazyPath_complete (p.dropWhile isSpaceRe) q hp3
      (fun c hc => hp2 c (hsubp c hc)) (fun c hc => hp1 c (hsubp c hc)) hq
  have hdroplen : (w ++ (p ++ q)).drop (((w ++ (p ++ q)).takeWhile isSpaceRe).length) =
      p.dropWhile isSpaceRe ++ q := by
    rw [drop_length_takeWhile, dropWhile_append_of_all isSpaceRe w (p ++ q) hw2,
      dropWhile_append_of_stop isSpaceRe p q hp3]
  have hW : (w ++ (p ++ q)).takeWhile isSpaceRe = w ++ p.takeWhile isSpaceRe := by
    rw [takeWhile_append_of_all isSpaceRe w (p ++ q) hw2,
      takeWhile_append_of_stop isSpaceRe p q hp3]
  obtain ⟨k, hk⟩ : ∃ k, ((w ++ (p ++ q)).takeWhile isSpaceRe).length = k + 1 := by
    refine ⟨((w ++ (p ++ q)).takeWhile isSpaceRe).length - 1, ?_⟩
    rw [hW]
    simp only [List.length_append]
    have : w.length ≠ 0 := by
      intro h0
      exact hw1 (List.length_eq_zero.mp h0)
    omega
  have hsp : spacesThenLazy (((w ++ (p ++ q)).takeWhile isSpaceRe).length)
      (w ++ (p ++ q)) = some (p.dropWhile isSpaceRe) := by
    rw [hk]
    have e2 : spacesThenLazy (k + 1) (w ++ (p ++ q)) =
        match lazyPath ((w ++ (p ++ q)).drop (k + 1)) with
        | some cap => some cap
        | none => spacesThenLazy k (w ++ (p ++ q)) := rfl
    rw [e2, ← hk, hdroplen, hlazy]
  have hstrip : pyStrip isSpaceRe (p.dropWhile isSpaceRe) = pyStrip isSpaceRe p := by
    unfold pyStrip
    rw [dropWhile_idem]
  unfold extract_path_and_method
  rw [hfv]
  show (match spacesThenLazy (((w ++ (p ++ q)).takeWhile isSpaceRe).length)
      (w ++ (p ++ q)) with
    | some cap => (v, '/' :: pyStrip (fun c => c = '/') (pyStrip isSpaceRe cap))
    | none => (['g', 'e', 't'], "/unknown".toList)) = _
  rw [hsp]
  show (v, '/' :: pyStrip (fun c => c = '/') (pyStrip isSpaceRe (p.dropWhile isSpaceRe))) = _
  rw [hstrip]

theorem C2_parse_wellformed_witness :
    extract_path_and_method
        "GET Default/FaceOrdering/GetInterval?machine_Number={machine_Number}".toList =
      ("get".toList, "/Default/FaceOrdering/GetInterval".toList) := by
  have h := C2_parse_wellformed "get".toList "GET".toList " ".toList
    "Default/FaceOrdering/GetInterval".toList
    "?machine_Number={machine_Number}".toList
    (by decide) (by decide) (by decide) (by decide) (by decide) (by decide)
    (by decide) (by decide)
  rw [show "GET Default/FaceOrdering/GetInterval?machine_Number={machine_Number}".toList =
      "GET".toList ++ " ".toList ++ "Default/FaceOrdering/GetInterval".toList ++
      "?machine_Number={machine_Number}".toList from by decide]
  rw [h]
  decide

/-- C4: whenever no verb alternative matches a prefix of the input followed
by a whitespace character and at least one further character, the parser
returns the `("get", "/unknown")` fallback (the embedded parser is a total
function, so no input raises an exception). -/
theorem C4_no_verb_fallback (s : List Char)
    (h : ∀ v ∈ httpVerbs, lowerList (s.take v.length) = v →
      (s.drop v.length).length ≤ 1 ∨
        isSpaceRe ((s.drop v.length).headD 'x') = false) :
    extract_path_and_method s = (['g', 'e', 't'], "/unknown".toList) := by
  cases hfv : findVerb httpVerbs s with
  | none =>
    unfold extract_path_and_method
    rw [hfv]
  | some vr =>
    obtain ⟨v, rest⟩ := vr
    obtain ⟨hmem, hlow, hrest⟩ := findVerb_eq_some httpVerbs s v rest hfv
    have hcase := h v hmem hlow
    rw [← hrest] at hcase
    unfold extract_path_and_method
    rw [hfv]
    match rest, hcase with
    | [], _ => rfl
    | c :: rest2, hcase =>
      have hsplit : isSpaceRe c = false ∨ rest2 = [] := by
        rcases hcase with hlen | hhead
        · right
          simp only [List.length_cons] at hlen
          exact List.length_eq_zero.mp (by omega)
        · left
          simpa using hhead
      rcases hsplit with hc | rfl
      · show (match spacesThenLazy (List.takeWhile isSpaceRe (c :: rest2)).length
            (c :: rest2) with
          | some cap => (v, '/' :: pyStrip (fun c => c = '/') (pyStrip isSpaceRe cap))
          | none => (['g', 'e', 't'], "/unknown".toList)) =
          (['g', 'e', 't'], "/unknown".toList)
        rw [show List.takeWhile isSpaceRe (c :: rest2) = [] from by
          simp [List.takeWhile_cons, hc]]
        rfl
      · show (match spacesThenLazy (List.takeWhile isSpaceRe [c]).length [c] with
          | some cap => (v, '/' :: pyStrip (fun c => c = '/') (pyStrip isSpaceRe cap))
          | none => (['g', 'e', 't'], "/unknown".toList)) =
          (['g', 'e', 't'], "/unknown".toList)
        by_cases hsp : isSpaceRe c = true
        · rw [show List.takeWhile isSpaceRe [c] = [c] from by
            simp [List.takeWhile_cons, hsp]]
          rfl
        · rw [show List.takeWhile isSpaceRe [c] = [] from by
            simp only [List.takeWhile_cons]
            simp only [Bool.not_eq_true] at hsp
            simp [hsp]]
          rfl

theorem C4_no_verb_fallback_witness :
    extract_path_and_method "hello".toList = (['g', 'e', 't'], "/unknown".toList) :=
  C4_no_verb_fallback "hello".toList (by decide)

theorem dictLookup_dictInsert {β : Type} (d : List (List Char × β)) (k k' : List Char)
    (v : β) :
    dictLookup (dictInsert d k v) k' = if k' = k then some v else dictLookup d k' := by
  induction d with
  | nil =>
    by_cases hk' : k' = k <;> simp [dictInsert, dictLookup, hk']
  | cons kv rest ih =>
    obtain ⟨k0, v0⟩ := kv
    by_cases hk : k = k0
    · subst hk
      by_cases hk' : k' = k <;> simp [dictInsert, dictLookup, hk']
    · by_cases hk' : k' = k0
      · subst hk'
        have hne : ¬k' = k := fun hc => hk hc.symm
        simp [dictInsert, dictLookup, hk, hne]
      · simp [dictInsert, dictLookup, hk, hk', ih]

theorem dictLookup_mem {β : Type} :
    ∀ (d : List (List Char × β)) (k : List Char) (v : β),
      dictLookup d k = some v → (k, v) ∈ d := by
  intro d
  induction d with
  | nil => intro k v h; exact Option.noConfusion h
  | cons kv rest ih =>
    intro k v h
    obtain ⟨k0, v0⟩ := kv
    rw [dictLookup] at h
    split at h
    · rename_i hk
      simp only [Option.some.injEq] at h
      subst hk
      subst h
      simp
    · exact List.mem_cons_of_mem _ (ih k v h)

theorem dictInsert_keys_mem {β : Type} :
    ∀ (d : List (List Char × β)) (k v : _) (x : List Char),
      x ∈ (dictInsert d k v).map Prod.fst ↔ x ∈ d.map Prod.fst ∨ x = k := by
  intro d
  induction d with
  | nil => intro k v x; simp [dictInsert]
  | cons kv rest ih =>
    intro k v x
    obtain ⟨k0, v0⟩ := kv
    by_cases hk : k = k0
    · subst hk
      have e : dictInsert ((k, v0) :: rest) k v = (k, v) :: rest := by
        simp [dictInsert]
      rw [e]
      simp only [List.map_cons, List.mem_cons]
      tauto
    · simp only [dictInsert, if_neg hk, List.map_cons, List.mem_cons, ih]
      tauto

theorem dictInsert_keys_nodup {β : Type} :
    ∀ (d : List (List Char × β)) (k : List Char) (v : β),
      (d.map Prod.fst).Nodup → ((dictInsert d k v).map Prod.fst).Nodup := by
  intro d
  induction d with
  | nil => intro k v h; simp [dictInsert]
  | cons kv rest ih =>
    intro k v h
    obtain ⟨k0, v0⟩ := kv
    simp only [List.map_cons, List.nodup_cons] at h
    by_cases hk : k = k0
    · have e : dictInsert ((k0, v0) :: rest) k v = (k, v) :: rest := by
        simp [dictInsert, hk]
      rw [e]
      simp only [List.map_cons, List.nodup_cons]
      rw [hk]
      exact h
    · simp only [dictInsert, if_neg hk, List.map_cons, List.nodup_cons]
      constructor
      · intro hmem
        rcases (dictInsert_keys_mem rest k v k0).mp hmem with hmem | hmem
        · exact h.1 hmem
        · exact hk hmem.symm
      · exact ih k v h.2

theorem dictInsert_values {β : Type} (P : β → Prop) :
    ∀ (d : List (List Char × β)) (k : List Char) (v : β),
      (∀ kv ∈ d, P kv.2) → P v → ∀ kv ∈ dictInsert d k v, P kv.2 := by
  intro d
  induction d with
  | nil =>
    intro k v hd hv kv hkv
    have e : kv = (k, v) := by simpa [dictInsert] using hkv
    rw [e]
    exact hv
  | cons kv0 rest ih =>
    intro k v hd hv kv hkv
    obtain ⟨k0, v0⟩ := kv0
    by_cases hk : k = k0
    · have e : dictInsert ((k0, v0) :: rest) k v = (k, v) :: rest := by
        simp [dictInsert, hk]
      rw [e, List.mem_cons] at hkv
      rcases hkv with h1 | h1
      · rw [h1]; exact hv
      · exact hd kv (by simp [h1])
    · have e : dictInsert ((k0, v0) :: rest) k v = (k0, v0) :: dictInsert rest k v := by
        simp [dictInsert, hk]
      rw [e, List.mem_cons] at hkv
      rcases hkv with h1 | h1
      · rw [h1]; exact hd (k0, v0) (by simp)
      · exact ih k v (fun x hx => hd x (by simp [hx])) hv kv h1

theorem orO_none_right {α : Type} : ∀ x : Option α, orO x none = x := by
  intro x
  cases x <;> rfl

theorem orO_assoc {α : Type} (a b c : Option α) : orO (orO a b) c = orO a (orO b c) := by
  cases a <;> rfl

theorem lookup2_pathsInsert (paths : PathsMap) (p0 m0 : List Char) (op : Operation)
    (p m : List Char) :
    lookup2 (pathsInsert paths p0 m0 op) p m =
      if p = p0 ∧ m = m0 then some op else lookup2 paths p m := by
  unfold lookup2 pathsInsert
  rw [dictLookup_dictInsert]
  by_cases hp : p = p0
  · subst hp
    rw [if_pos rfl]
    simp only [Option.getD_some]
    rw [dictLookup_dictInsert]
    by_cases hm : m = m0
    · simp [hm]
    · simp [hm]
  · rw [if_neg hp, if_neg (by tauto)]

/-- Nested dict insertion refines last-write-wins over the flat triple list:
a lookup in the built `paths` returns the operation of the last processed
entry at that (path, method), or falls back to the initial mapping. -/
theorem convertEntries_lookup :
    ∀ (entries : List (List Char × Api)) (st : CounterState) (paths : PathsMap)
      (p m : List Char),
      lookup2 (convertEntries st paths entries) p m =
        orO (lastMatch p m (opsList st entries)) (lookup2 paths p m) := by
  intro entries
  induction entries with
  | nil => intro st paths p m; rfl
  | cons ga rest ih =>
    intro st paths p m
    obtain ⟨g, api⟩ := ga
    have e1 : convertEntries st paths ((g, api) :: rest) =
        convertEntries
          (allocate st (opBase (extract_path_and_method api.name).1
            (extract_path_and_method api.name).2)).2
          (pathsInsert paths (extract_path_and_method api.name).2
            (extract_path_and_method api.name).1
            (buildOperation g api
              (allocate st (opBase (extract_path_and_method api.name).1
                (extract_path_and_method api.name).2)).1
              (extract_path_and_method api.name).1
              (extract_parameters_from_name api.name)))
          rest := rfl
    have e2 : opsList st ((g, api) :: rest) =
        ((extract_path_and_method api.name).2, (extract_path_and_method api.name).1,
          buildOperation g api
            (allocate st (opBase (extract_path_and_method api.name).1
              (extract_path_and_method api.name).2)).1
            (extract_path_and_method api.name).1
            (extract_parameters_from_name api.name)) ::
          opsList (allocate st (opBase (extract_path_and_method api.name).1
            (extract_path_and_method api.name).2)).2 rest := rfl
    rw [e1, ih, e2, lastMatch, orO_assoc]
    congr 1
    rw [lookup2_pathsInsert]
    by_cases hp : p = (extract_path_and_method api.name).2 ∧
        m = (extract_path_and_method api.name).1
    · rw [if_pos hp, if_pos ⟨hp.1.symm, hp.2.symm⟩]
      rfl
    · rw [if_neg hp, if_neg (by
        intro hc
        exact hp ⟨hc.1.symm, hc.2.symm⟩)]
      rfl

/-- The built paths mapping keeps unique keys at both nesting levels. -/
theorem convertEntries_nodup :
    ∀ (entries : List (List Char × Api)) (st : CounterState) (paths : PathsMap),
      ((paths.map Prod.fst).Nodup ∧ ∀ pv ∈ paths, (pv.2.map Prod.fst).Nodup) →
      (((convertEntries st paths entries).map Prod.fst).Nodup ∧
        ∀ pv ∈ convertEntries st paths entries, (pv.2.map Prod.fst).Nodup) := by
  intro entries
  induction entries with
  | nil => intro st paths h; exact h
  | cons ga rest ih =>
    intro st paths h
    obtain ⟨g, api⟩ := ga
    apply ih
    constructor
    · exact dictInsert_keys_nodup paths _ _ h.1
    · apply dictInsert_values (fun inner => (inner.map Prod.fst).Nodup) paths _ _ h.2
      apply dictInsert_keys_nodup
      cases hlk : dictLookup paths (extract_path_and_method api.name).2 with
      | none => simp
      | some inner =>
        simpa using h.2 _ (dictLookup_mem paths _ inner hlk)

/-- C5: the emitted `paths` mapping has at most one operation per
(path, method) — keys are unique at both levels — and the operation stored at
`paths[path][method]` is exactly the one built from the LAST entry (in
group-then-entry processing order) normalizing to that (path, method): a later
colliding entry replaces an earlier one, while entries at the same path with
a different method live under their own method key and are retained. -/
theorem C5_paths_last_write_wins (base : List Char) (groups : List (List Char × Group)) :
    (((convert_to_swagger base groups).paths).map Prod.fst).Nodup ∧
    (∀ pv ∈ (convert_to_swagger base groups).paths, (pv.2.map Prod.fst).Nodup) ∧
    (∀ p m : List Char,
      lookup2 (convert_to_swagger base groups).paths p m =
        lastMatch p m (opsList emptyCounter (flattenGroups groups))) := by
  have hnodup := convertEntries_nodup (flattenGroups groups) emptyCounter []
    (by constructor <;> simp)
  refine ⟨hnodup.1, hnodup.2, ?_⟩
  intro p m
  show lookup2 (convertEntries emptyCounter [] (flattenGroups groups)) p m = _
  rw [convertEntries_lookup]
  exact orO_none_right _

/-- Every triple the pipeline produces comes from some input entry, its
operation built by `buildOperation` on that entry's parsed name. -/
theorem opsList_mem :
    ∀ (entries : List (List Char × Api)) (st : CounterState)
      (t : List Char × List Char × Operation),
      t ∈ opsList st entries →
      ∃ g api oid, (g, api) ∈ entries ∧
        t.1 = (extract_path_and_method api.name).2 ∧
        t.2.1 = (extract_path_and_method api.name).1 ∧
        t.2.2 = buildOperation g api oid (extract_path_and_method api.name).1
          (extract_parameters_from_name api.name) := by
  intro entries
  induction entries with
  | nil => intro st t h; simp [opsList] at h
  | cons ga rest ih =>
    intro st t h
    obtain ⟨g, api⟩ := ga
    have e2 : opsList st ((g, api) :: rest) =
        ((extract_path_and_method api.name).2, (extract_path_and_method api.name).1,
          buildOperation g api
            (allocate st (opBase (extract_path_and_method api.name).1
              (extract_path_and_method api.name).2)).1
            (extract_path_and_method api.name).1
            (extract_parameters_from_name api.name)) ::
          opsList (allocate st (opBase (extract_path_and_method api.name).1
            (extract_path_and_method api.name).2)).2 rest := rfl
    rw [e2, List.mem_cons] at h
    rcases h with rfl | h
    · exact ⟨g, api, _, by simp, rfl, rfl, rfl⟩
    · obtain ⟨g', api', oid, hmem, h1, h2, h3⟩ := ih _ t h
      exact ⟨g', api', oid, by simp [hmem], h1, h2, h3⟩

/-- A successful last-match lookup names a triple of the list. -/
theorem lastMatch_mem :
    ∀ (ops : List (List Char × List Char × Operation)) (p m : List Char) (op : Operation),
      lastMatch p m ops = some op → ∃ t ∈ ops, t.2.2 = op ∧ t.1 = p ∧ t.2.1 = m := by
  intro ops
  induction ops with
  | nil => intro p m op h; exact Option.noConfusion h
  | cons t rest ih =>
    intro p m op h
    rw [lastMatch] at h
    cases hrec : lastMatch p m rest with
    | some op' =>
      rw [hrec] at h
      have : op' = op := by simpa [orO] using h
      subst this
      obtain ⟨t', ht', h1, h2, h3⟩ := ih p m op' hrec
      exact ⟨t', by simp [ht'], h1, h2, h3⟩
    | none =>
      rw [hrec] at h
      simp only [orO] at h
      split at h
      · rename_i hcond
        simp only [Option.some.injEq] at h
        exact ⟨t, by simp, h, hcond.1, hcond.2⟩
      · exact Option.noConfusion h

/-- In an association list with distinct keys, membership determines lookup. -/
theorem dictLookup_of_mem_nodup {β : Type} :
    ∀ (d : List (List Char × β)), (d.map Prod.fst).Nodup →
      ∀ kv ∈ d, dictLookup d kv.1 = some kv.2 := by
  intro d
  induction d with
  | nil => intro h kv hkv; simp at hkv
  | cons kv0 rest ih =>
    intro h kv hkv
    obtain ⟨k0, v0⟩ := kv0
    simp only [List.map_cons, List.nodup_cons] at h
    rw [List.mem_cons] at hkv
    rcases hkv with rfl | hkv
    · simp [dictLookup]
    · have hne : kv.1 ≠ k0 := by
        intro hc
        apply h.1
        rw [← hc]
        exact List.mem_map_of_mem Prod.fst hkv
      rw [dictLookup, if_neg hne]
      exact ih h.2 kv hkv

/-- In the nested mapping with unique keys, membership determines `lookup2`. -/
theorem mem_lookup2_of_nodup :
    ∀ (paths : PathsMap), (paths.map Prod.fst).Nodup →
      (∀ pv ∈ paths, (pv.2.map Prod.fst).Nodup) →
      ∀ pv ∈ paths, ∀ mo ∈ pv.2, lookup2 paths pv.1 mo.1 = some mo.2 := by
  intro paths h1 h2 pv hpv mo hmo
  unfold lookup2
  rw [dictLookup_of_mem_nodup paths h1 pv hpv]
  simp only [Option.getD_some]
  exact dictLookup_of_mem_nodup pv.2 (h2 pv hpv) mo hmo

/-- C7 amended: every operation in the emitted document carries VERBATIM the
description of the API entry it was built from (and that entry's name as its
summary) — an empty entry description stays empty; the literal
`"No documentation available."` is never substituted by the assembler (the
counterexample shows the claim's empty-string fallback does not happen). -/
theorem C7_description_amended (base : List Char) (groups : List (List Char × Group))
    (p m : List Char) (op : Operation)
    (h : lookup2 (convert_to_swagger base groups).paths p m = some op) :
    ∃ g api, (g, api) ∈ flattenGroups groups ∧
      op.description = api.description ∧ op.summary = api.name := by
  have h2 : lastMatch p m (opsList emptyCounter (flattenGroups groups)) = some op := by
    have := convertEntries_lookup (flattenGroups groups) emptyCounter [] p m
    have hnil : lookup2 ([] : PathsMap) p m = none := rfl
    rw [hnil, orO_none_right] at this
    rw [← this]
    exact h
  obtain ⟨t, ht, hop, -, -⟩ := lastMatch_mem _ p m op h2
  obtain ⟨g, api, oid, hmem, -, -, h3⟩ := opsList_mem _ _ t ht
  refine ⟨g, api, hmem, ?_, ?_⟩
  · rw [← hop, h3]
    rfl
  · rw [← hop, h3]
    rfl

theorem C7_description_amended_witness :
    ∃ g api,
      (g, api) ∈ flattenGroups
        [("G".toList, Group.mk "d".toList [Api.mk "GET a".toList "u".toList []])] ∧
      (buildOperation "G".toList (Api.mk "GET a".toList "u".toList [])
        "get_a".toList "get".toList []).description = api.description ∧
      (buildOperation "G".toList (Api.mk "GET a".toList "u".toList [])
        "get_a".toList "get".toList []).summary = api.name :=
  C7_description_amended [] [("G".toList, Group.mk "d".toList
    [Api.mk "GET a".toList "u".toList []])] "/a".toList "get".toList
    (buildOperation "G".toList (Api.mk "GET a".toList "u".toList [])
      "get_a".toList "get".toList []) (by decide)

/-- C7 counterexample: an entry with empty description is emitted with the
empty description, not the claimed `"No documentation available."` literal —
the code's `.get('description', ...)` default fires only for a missing key,
never for an empty value. -/
theorem C7_counterexample :
    (lookup2 (convert_to_swagger []
        [("G".toList, Group.mk "d".toList
          [Api.mk "GET a".toList "u".toList []])]).paths
      "/a".toList "get".toList).map Operation.description = some [] ∧
    ([] : List Char) ≠ "No documentation available.".toList := by
  constructor
  · decide
  · decide

/-- C9 counterexample: in the four-entry build `GET a/1, GET a/1, GET a, GET a`
the first two entries collide at `(get, /a/1)` and the overwritten first
entry's unsuffixed base `get_a_1` nevertheless appears in the emitted
document: it is the operationId stored at `paths[/a][get]`, allocated as the
collision suffix of the unrelated base `get_a`. -/
theorem C9_counterexample :
    extract_path_and_method "GET a/1".toList = ("get".toList, "/a/1".toList) ∧
    opBase "get".toList "/a/1".toList = "get_a_1".toList ∧
    (lookup2 (convert_to_swagger []
        [("G".toList, Group.mk []
          [Api.mk "GET a/1".toList [] [], Api.mk "GET a/1".toList [] [],
           Api.mk "GET a".toList [] [], Api.mk "GET a".toList [] []])]).paths
      "/a".toList "get".toList).map Operation.operationId = some ("get_a_1".toList) := by
  refine ⟨by decide, by decide, by decide⟩

/-- C9 amended: in a build of exactly two entries that normalize to the same
(path, method), the surviving operation at `paths[path][method]` is the one
built from the second entry and carries the collision-suffixed id
`base + "_1"`, and within THIS build the unsuffixed base appears in no
emitted operation; with further entries in the build the base string can
reappear as a different base's collision suffix (see the counterexample), so
the claim's unconditional "appears nowhere" is weakened to the two-entry
collision scenario. -/
theorem C9_overwrite_amended (base g gd u1 u2 d1 d2 n1 n2 m p : List Char)
    (h1 : extract_path_and_method n1 = (m, p))
    (h2 : extract_path_and_method n2 = (m, p)) :
    lookup2 (convert_to_swagger base
        [(g, Group.mk gd [Api.mk n1 u1 d1, Api.mk n2 u2 d2])]).paths p m =
      some (buildOperation g (Api.mk n2 u2 d2) (opBase m p ++ ['_', '1']) m
        (extract_parameters_from_name n2)) ∧
    (∀ pv ∈ (convert_to_swagger base
        [(g, Group.mk gd [Api.mk n1 u1 d1, Api.mk n2 u2 d2])]).paths,
      ∀ mo ∈ pv.2, mo.2.operationId ≠ opBase m p) := by
  have hm1 : (extract_path_and_method (Api.mk n1 u1 d1).name).1 = m := by rw [h1]
  have hp1 : (extract_path_and_method (Api.mk n1 u1 d1).name).2 = p := by rw [h1]
  have hm2 : (extract_path_and_method (Api.mk n2 u2 d2).name).1 = m := by rw [h2]
  have hp2 : (extract_path_and_method (Api.mk n2 u2 d2).name).2 = p := by rw [h2]
  have hparams2 : extract_parameters_from_name (Api.mk n2 u2 d2).name =
      extract_parameters_from_name n2 := rfl
  have hst1 : ((allocate emptyCounter (opBase m p)).2) (opBase m p) = some 0 := by
    show (fun k => if k = opBase m p then some 0 else emptyCounter k) (opBase m p) = some 0
    simp
  have hall2 : allocate (allocate emptyCounter (opBase m p)).2 (opBase m p) =
      (opBase m p ++ '_' :: decDigits (0 + 1),
        fun k => if k = opBase m p then some (0 + 1)
          else (allocate emptyCounter (opBase m p)).2 k) := by
    have e : allocate (allocate emptyCounter (opBase m p)).2 (opBase m p) =
        match (allocate emptyCounter (opBase m p)).2 (opBase m p) with
        | some n => (opBase m p ++ '_' :: decDigits (n + 1),
            fun k => if k = opBase m p then some (n + 1)
              else (allocate emptyCounter (opBase m p)).2 k)
        | none => (opBase m p,
            fun k => if k = opBase m p then some 0
              else (allocate emptyCounter (opBase m p)).2 k) := rfl
    rw [e, hst1]
  have eops : opsList emptyCounter
      [(g, Api.mk n1 u1 d1), (g, Api.mk n2 u2 d2)] =
      [(p, m, buildOperation g (Api.mk n1 u1 d1) (opBase m p) m
        (extract_parameters_from_name n1)),
       (p, m, buildOperation g (Api.mk n2 u2 d2) (opBase m p ++ ['_', '1']) m
        (extract_parameters_from_name n2))] := by
    have e1 : opsList emptyCounter [(g, Api.mk n1 u1 d1), (g, Api.mk n2 u2 d2)] =
        ((extract_path_and_method (Api.mk n1 u1 d1).name).2,
          (extract_path_and_method (Api.mk n1 u1 d1).name).1,
          buildOperation g (Api.mk n1 u1 d1)
            (allocate emptyCounter
              (opBase (extract_path_and_method (Api.mk n1 u1 d1).name).1
                (extract_path_and_method (Api.mk n1 u1 d1).name).2)).1
            (extract_path_and_method (Api.mk n1 u1 d1).name).1
            (extract_parameters_from_name (Api.mk n1 u1 d1).name)) ::
          opsList (allocate emptyCounter
            (opBase (extract_path_and_method (Api.mk n1 u1 d1).name).1
              (extract_path_and_method (Api.mk n1 u1 d1).name).2)).2
            [(g, Api.mk n2 u2 d2)] := rfl
    rw [e1, hm1, hp1]
    have e2 : opsList (allocate emptyCounter (opBase m p)).2 [(g, Api.mk n2 u2 d2)] =
        [((extract_path_and_method (Api.mk n2 u2 d2).name).2,
          (extract_path_and_method (Api.mk n2 u2 d2).name).1,
          buildOperation g (Api.mk n2 u2 d2)
            (allocate (allocate emptyCounter (opBase m p)).2
              (opBase (extract_path_and_method (Api.mk n2 u2 d2).name).1
                (extract_path_and_method (Api.mk n2 u2 d2).name).2)).1
            (extract_path_and_method (Api.mk n2 u2 d2).name).1
            (extract_parameters_from_name (Api.mk n2 u2 d2).name))] := rfl
    rw [e2, hm2, hp2, hall2]
    rfl
  have hlook : forall p' m' : List Char,
      lookup2 (convert_to_swagger base
        [(g, Group.mk gd [Api.mk n1 u1 d1, Api.mk n2 u2 d2])]).paths p' m' =
      lastMatch p' m' (opsList emptyCounter
        [(g, Api.mk n1 u1 d1), (g, Api.mk n2 u2 d2)]) := by
    intro p' m'
    show lookup2 (convertEntries emptyCounter []
      [(g, Api.mk n1 u1 d1), (g, Api.mk n2 u2 d2)]) p' m' = _
    rw [convertEntries_lookup]
    have hnil : lookup2 ([] : PathsMap) p' m' = none := rfl
    rw [hnil, orO_none_right]
  have hneq : opBase m p ++ ['_', '1'] ≠ opBase m p := by
    intro hc
    have := congrArg List.length hc
    simp at this
  have elast : forall p' m' : List Char, lastMatch p' m'
      [(p, m, buildOperation g (Api.mk n1 u1 d1) (opBase m p) m
        (extract_parameters_from_name n1)),
       (p, m, buildOperation g (Api.mk n2 u2 d2) (opBase m p ++ ['_', '1']) m
        (extract_parameters_from_name n2))] =
      orO (orO none (if p = p' ∧ m = m' then
        some (buildOperation g (Api.mk n2 u2 d2) (opBase m p ++ ['_', '1']) m
          (extract_parameters_from_name n2)) else none))
        (if p = p' ∧ m = m' then
          some (buildOperation g (Api.mk n1 u1 d1) (opBase m p) m
            (extract_parameters_from_name n1)) else none) := fun p' m' => rfl
  constructor
  · rw [hlook p m, eops, elast p m, if_pos (And.intro rfl rfl),
      if_pos (And.intro rfl rfl)]
    rfl
  · intro pv hpv mo hmo
    have hnodup := convertEntries_nodup
      [(g, Api.mk n1 u1 d1), (g, Api.mk n2 u2 d2)] emptyCounter []
      (by constructor <;> simp)
    have hmemlook : lookup2 (convert_to_swagger base
        [(g, Group.mk gd [Api.mk n1 u1 d1, Api.mk n2 u2 d2])]).paths pv.1 mo.1 =
        some mo.2 :=
      mem_lookup2_of_nodup _ hnodup.1 hnodup.2 pv hpv mo hmo
    have hlk := hlook pv.1 mo.1
    rw [hmemlook, eops, elast pv.1 mo.1] at hlk
    by_cases hcond : p = pv.1 ∧ m = mo.1
    · rw [if_pos hcond, if_pos hcond] at hlk
      simp only [orO] at hlk
      have hval : mo.2 = buildOperation g (Api.mk n2 u2 d2)
          (opBase m p ++ ['_', '1']) m (extract_parameters_from_name n2) :=
        Option.some.inj hlk
      rw [hval]
      exact hneq
    · rw [if_neg hcond, if_neg hcond] at hlk
      simp only [orO] at hlk
      exact Option.noConfusion hlk

theorem C9_overwrite_amended_witness :
    lookup2 (convert_to_swagger []
        [("G".toList, Group.mk [] [Api.mk "GET b".toList [] [],
          Api.mk "GET b".toList [] []])]).paths "/b".toList "get".toList =
      some (buildOperation "G".toList (Api.mk "GET b".toList [] [])
        (opBase "get".toList "/b".toList ++ ['_', '1']) "get".toList
        (extract_parameters_from_name "GET b".toList)) :=
  (C9_overwrite_amended [] "G".toList [] [] [] [] [] "GET b".toList "GET b".toList
    "get".toList "/b".toList (by decide) (by decide)).1

/-- C10: an entry whose name fails the leading-verb pattern but still contains
parameter-shaped substrings gets its operation filed under path `/unknown`
with method `get`, carrying exactly the parameters extracted from the raw
name — even though the `/unknown` path template contains no placeholder at
all, so the operation's path parameters do not occur in its path template. -/
theorem C10_unknown_path_params (base g gd u d n : List Char)
    (h1 : extract_path_and_method n = ("get".toList, "/unknown".toList))
    (h2 : extract_parameters_from_name n ≠ []) :
    (∃ op : Operation,
      lookup2 (convert_to_swagger base [(g, Group.mk gd [Api.mk n u d])]).paths
        "/unknown".toList "get".toList = some op ∧
      op.parameters = some (extract_parameters_from_name n)) ∧
    pathParamScan "/unknown".toList = [] := by
  have hm1 : (extract_path_and_method (Api.mk n u d).name).1 = "get".toList := by rw [h1]
  have hp1 : (extract_path_and_method (Api.mk n u d).name).2 = "/unknown".toList := by
    rw [h1]
  constructor
  · have eops : opsList emptyCounter [(g, Api.mk n u d)] =
        [("/unknown".toList, "get".toList,
          buildOperation g (Api.mk n u d)
            (allocate emptyCounter (opBase "get".toList "/unknown".toList)).1
            "get".toList (extract_parameters_from_name n))] := by
      have e1 : opsList emptyCounter [(g, Api.mk n u d)] =
          [((extract_path_and_method (Api.mk n u d).name).2,
            (extract_path_and_method (Api.mk n u d).name).1,
            buildOperation g (Api.mk n u d)
              (allocate emptyCounter
                (opBase (extract_path_and_method (Api.mk n u d).name).1
                  (extract_path_and_method (Api.mk n u d).name).2)).1
              (extract_path_and_method (Api.mk n u d).name).1
              (extract_parameters_from_name (Api.mk n u d).name))] := rfl
      rw [e1, hm1, hp1]
    refine ⟨buildOperation g (Api.mk n u d)
      (allocate emptyCounter (opBase "get".toList "/unknown".toList)).1
      "get".toList (extract_parameters_from_name n), ?_, ?_⟩
    · show lookup2 (convertEntries emptyCounter [] [(g, Api.mk n u d)])
        "/unknown".toList "get".toList = _
      rw [convertEntries_lookup]
      have hnil : lookup2 ([] : PathsMap) "/unknown".toList "get".toList = none := rfl
      rw [hnil, orO_none_right, eops]
      show orO none (if "/unknown".toList = "/unknown".toList ∧
        "get".toList = "get".toList then _ else none) = _
      rw [if_pos ⟨rfl, rfl⟩]
      rfl
    · show (if (extract_parameters_from_name n).isEmpty then none
        else some (extract_parameters_from_name n)) = _
      rw [if_neg (by
        intro hc
        exact h2 (List.isEmpty_iff.mp hc))]
  · decide

theorem C10_unknown_path_params_witness :
    (∃ op : Operation,
      lookup2 (convert_to_swagger []
        [("G".toList, Group.mk [] [Api.mk "Nonsense/{id}".toList [] []])]).paths
        "/unknown".toList "get".toList = some op ∧
      op.parameters = some (extract_parameters_from_name "Nonsense/{id}".toList)) ∧
    pathParamScan "/unknown".toList = [] :=
  C10_unknown_path_params [] "G".toList [] [] [] "Nonsense/{id}".toList
    (by decide) (by decide)

theorem C3_extract_parameters_witness :
    (∃ prm ∈ extract_parameters_from_name
        "POST api/product/edit/book/{product_id}?token={token}".toList,
      prm.name = "product_id".toList ∧ prm.location = "path".toList) ∧
    extract_parameters_from_name
        "POST api/product/edit/book/{product_id}?token={token}".toList =
      [mkPathParam "product_id".toList, mkQueryParam "token".toList] := by
  constructor
  · obtain ⟨ps, qs, h1, h2, h3, h4, h5, h6, h7⟩ :=
      C3_extract_parameters
        "POST api/product/edit/book/{product_id}?token={token}".toList
    obtain ⟨prm, hprm, hname, hloc⟩ := h7 "product_id".toList (by decide)
    exact ⟨prm, hprm, hname, hloc⟩
  · decide

theorem C5_paths_last_write_wins_witness :
    lookup2 (convert_to_swagger []
        [("G".toList, Group.mk []
          [Api.mk "GET a".toList [] [], Api.mk "POST a".toList [] [],
           Api.mk "GET a".toList "u2".toList "d2".toList])]).paths
      "/a".toList "get".toList =
      lastMatch "/a".toList "get".toList
        (opsList emptyCounter (flattenGroups
          [("G".toList, Group.mk []
            [Api.mk "GET a".toList [] [], Api.mk "POST a".toList [] [],
             Api.mk "GET a".toList "u2".toList "d2".toList])])) :=
  (C5_paths_last_write_wins []
    [("G".toList, Group.mk []
      [Api.mk "GET a".toList [] [], Api.mk "POST a".toList [] [],
       Api.mk "GET a".toList "u2".toList "d2".toList])]).2.2
    "/a".toList "get".toList

end AspnetToSwagger
